import Mathlib

/-!
# Word-search puzzle generator and selection matcher: shallow embedding

This file embeds the two core components of the repository:

* `src/lib/puzzle-generator.ts` — `generatePuzzle`: eight-direction word
  placement with a 100-attempt budget per word, then random filler letters.
* `src/GameLogic.ts` — class `WordSearchGame`: four-direction placement with a
  100-attempt budget plus a single reversed-word fallback attempt,
  `fillRandomLetters`, and the selection matcher `checkSelection`.

Modelling conventions:

* A JS string is a `List Char` (`Str`).  A grid cell is `Option Char` where
  `none` models the empty string `''` used by the source as the vacant marker.
* `String.prototype.toUpperCase` is modelled on the ASCII range by
  `jsToUpper` (the repository's scope is ASCII A–Z).
* Every call `Math.floor(Math.random() * n)` is modelled by drawing the next
  value of an explicit integer stream and clamping it into the exact set of
  outcomes the JS expression can produce for that `n` (`floorRand`):
  `{0, …, n-1}` for `n > 0` and `{n, …, 0}` for `n ≤ 0` (negative `n` arises
  in the source when a word is longer than the grid).  Universally quantifying
  over streams therefore covers every possible run, and any concrete stream
  denotes a realizable run.
* JS array indexing `l[i]` is modelled by `jsIndex`, which yields `none`
  (JS `undefined`) out of range.  Reading `grid[r][c]` with `r` out of range
  evaluates `undefined[c]` and throws a `TypeError`; functions on that path
  return `Except Unit` and model the throw as `Except.error ()`.
* The selection matcher keys cells by the string `"${row}-${col}"`; since a JS
  number's textual form contains `-` only as a leading sign, this encoding is
  injective on integer pairs, so sets of keys are modelled as deduplicated
  lists of `Int × Int` pairs.
-/

abbrev Str := List Char

/-- ASCII fragment of `String.prototype.toUpperCase`, applied character-wise. -/
def jsToUpper (c : Char) : Char :=
  if 'a' ≤ c ∧ c ≤ 'z' then Char.ofNat (c.toNat - 32) else c

/-- Uppercase a whole string (`w.toUpperCase()`). -/
def upperStr (w : Str) : Str := w.map jsToUpper

/-- The exact value set of `Math.floor(Math.random() * n)`: for `n > 0` the
interval `[0, n-1]`, for `n ≤ 0` the interval `[n, 0]` (for negative `n`,
`Math.random() * n` lies in `(n, 0]`, so its floor lies in `[n, 0]`). -/
def floorRand (n : Int) (v : Int) : Int :=
  if 0 < n then max 0 (min (n - 1) v) else min 0 (max n v)

/-- An explicit random source: a stream of integers and a cursor.  Each
`Math.random()`-derived draw consumes one stream element. -/
structure RandSrc where
  f : Nat → Int
  i : Nat

/-- Draw `Math.floor(Math.random() * n)` from the stream. -/
def RandSrc.draw (r : RandSrc) (n : Int) : Int × RandSrc :=
  (floorRand n (r.f r.i), ⟨r.f, r.i + 1⟩)

/-- The stream cursor after `k` further draws. -/
def RandSrc.advance (r : RandSrc) (k : Nat) : RandSrc := ⟨r.f, r.i + k⟩

/-- A grid cell: `none` is the source's `''` vacant marker. -/
abbrev Cell := Option Char

/-- The letter grid, row-major. -/
abbrev Grid := List (List Cell)

/-- JS array indexing: `l[i]` is `undefined` (`none`) out of range. -/
def jsIndex (l : List α) (i : Int) : Option α :=
  if h : 0 ≤ i ∧ i.toNat < l.length then some (l.get ⟨i.toNat, h.2⟩) else none

/-- Total cell lookup by natural indices (used only where bounds are known). -/
def cellAt (g : Grid) (r c : Nat) : Cell :=
  (g.getD r []).getD c none

/-- `grid[r][c] = ch` for in-range naturals; out-of-range writes are no-ops
(the source only writes in range). -/
def setCell (g : Grid) (r c : Nat) (ch : Char) : Grid :=
  g.set r ((g.getD r []).set c (some ch))

/-- Total read of a cell addressed by possibly-negative coordinates. -/
def readCellTot (g : Grid) (p : Int × Int) : Option Char :=
  if p.1 < 0 ∨ p.2 < 0 then none else cellAt g p.1.toNat p.2.toNat

/-- The letters found at a list of cells, skipping vacant/out-of-range cells
(mirrors `.map(...).join('')`, where `undefined` and `''` contribute nothing). -/
def readLetters (g : Grid) (ps : List (Int × Int)) : Str :=
  ps.foldr (fun p acc => ((readCellTot g p).toList) ++ acc) []

/-- The filler alphabet `'ABCDEFGHIJKLMNOPQRSTUVWXYZ'`. -/
def letters : Str :=
  ['A','B','C','D','E','F','G','H','I','J','K','L','M',
   'N','O','P','Q','R','S','T','U','V','W','X','Y','Z']

/-- One body iteration of the filler loops: `if (grid[row][col] === '')`,
write a random letter there. -/
def fillCellStep (row col : Nat) (st : Grid × RandSrc) : Grid × RandSrc :=
  match cellAt st.1 row col with
  | none =>
    let (v, r') := st.2.draw 26
    (setCell st.1 row col (letters.getD v.toNat 'A'), r')
  | some _ => st

/-- `fillRandomLetters` / the filler loop of `generatePuzzle`: visit every
cell in row-major order and replace each `''` cell with a random letter. -/
def fillRandomLetters (size : Nat) (g : Grid) (r : RandSrc) : Grid × RandSrc :=
  (List.range size).foldl
    (fun st row =>
      (List.range size).foldl (fun st col => fillCellStep row col st) st)
    (g, r)

/-! ## `src/lib/puzzle-generator.ts` -/

/-- The eight directions of `puzzle-generator.ts`. -/
inductive Dir8 where
  | h | hr | v | vr | df | dfr | db | dbr
deriving DecidableEq, Repr

/-- The `directions` array, in source order. -/
def dirs8 : List Dir8 := [.h, .hr, .v, .vr, .df, .dfr, .db, .dbr]

/-- One placed word of `puzzle-generator.ts` (`PlacedWord`). -/
structure PlacedWord where
  word : Str
  positions : List (Int × Int)
  color : String
deriving DecidableEq, Repr

/-- A generated puzzle (`Puzzle`). -/
structure Puzzle where
  grid : Grid
  placedWords : List PlacedWord
deriving DecidableEq, Repr

/-- The fixed six-color palette `COLORS`. -/
def COLORS : List String :=
  ["#3B82F6", "#8B5CF6", "#EC4899", "#F59E0B", "#10B981", "#EF4444"]

/-- The cell visited at step `j` of a length-`len` walk, per the `switch` in
`generatePuzzle` (row first, column second). -/
def posAt8 (d : Dir8) (sr sc : Int) (len j : Nat) : Int × Int :=
  match d with
  | .h => (sr, sc + j)
  | .hr => (sr, sc + (len - 1 - j : Int) )
  | .v => (sr + j, sc)
  | .vr => (sr + (len - 1 - j : Int), sc)
  | .df => (sr + j, sc + j)
  | .dfr => (sr + (len - 1 - j : Int), sc + (len - 1 - j : Int))
  | .db => (sr + j, sc - j)
  | .dbr => (sr + (len - 1 - j : Int), sc - (len - 1 - j : Int))

/-- The two start-coordinate draws of one attempt, per the first `switch` in
`generatePuzzle` (`startRow` is drawn before `startCol`). -/
def drawStart8 (size : Nat) (len : Nat) (d : Dir8) (r : RandSrc) :
    Int × Int × RandSrc :=
  let n : Int := (size : Int) - (len : Int) + 1
  match d with
  | .h | .hr =>
    let (sr, r1) := r.draw (size : Int)
    let (sc, r2) := r1.draw n
    (sr, sc, r2)
  | .v | .vr =>
    let (sr, r1) := r.draw n
    let (sc, r2) := r1.draw (size : Int)
    (sr, sc, r2)
  | .df | .dfr =>
    let (sr, r1) := r.draw n
    let (sc, r2) := r1.draw n
    (sr, sc, r2)
  | .db | .dbr =>
    let (sr, r1) := r.draw n
    let (sc, r2) := r1.draw n
    (sr, (len : Int) - 1 + sc, r2)

/-- The per-letter walk of one attempt: bounds check, then conflict check
(`existing !== '' && existing !== word[j]`); returns the visited cells when
the whole walk is admissible, `none` when the attempt is aborted.  The bounds
check precedes the grid read, so this walk never reads out of range. -/
def checkCells (size : Nat) (g : Grid) (d : Dir8) (sr sc : Int) (len : Nat) :
    Nat → Str → Option (List (Int × Int))
  | _, [] => some []
  | j, ch :: rest =>
    let p := posAt8 d sr sc len j
    if p.1 < 0 ∨ (size : Int) ≤ p.1 ∨ p.2 < 0 ∨ (size : Int) ≤ p.2 then none
    else
      match cellAt g p.1.toNat p.2.toNat with
      | none => (checkCells size g d sr sc len (j + 1) rest).map (p :: ·)
      | some ex =>
        if ex = ch then (checkCells size g d sr sc len (j + 1) rest).map (p :: ·)
        else none

/-- Write a batch of letters at their cells, in list order. -/
def writeCells (g : Grid) : List ((Int × Int) × Char) → Grid
  | [] => g
  | pc :: rest => writeCells (setCell g pc.1.1.toNat pc.1.2.toNat pc.2) rest

/-- Commit a successful attempt: `grid[positions[j]] = word[j]` for each `j`. -/
def placeLetters (g : Grid) (ps : List (Int × Int)) (w : Str) : Grid :=
  writeCells g (ps.zip w)

/-- The attempt loop of `generatePuzzle` for one word: up to `fuel` attempts,
each drawing a direction and a start, walking, and committing on success. -/
def tryPlaceGen (size : Nat) (w : Str) :
    Nat → Grid → RandSrc → Option (List (Int × Int)) × Grid × RandSrc
  | 0, g, r => (none, g, r)
  | fuel + 1, g, r =>
    let (dv, r1) := r.draw 8
    let d := dirs8.getD dv.toNat .h
    let (sr, sc, r2) := drawStart8 size w.length d r1
    match checkCells size g d sr sc w.length 0 w with
    | some ps => (some ps, placeLetters g ps w, r2)
    | none => tryPlaceGen size w fuel g r2

/-- Stable descending-length sort, modelling
`[...words].sort((a, b) => b.length - a.length)` (JS `sort` is stable, and a
stable sort by a total preorder has a unique result, which insertion sort
with this relation computes). -/
def jsSortLenDesc (ws : List Str) : List Str :=
  ws.insertionSort (fun a b => b.length ≤ a.length)

/-- The word loop of `generatePuzzle`: uppercase the word, pick its palette
color by index, run the attempt loop, record the placement on success. -/
def genLoop (size : Nat) :
    List Str → Nat → Grid → List PlacedWord → RandSrc →
    Grid × List PlacedWord × RandSrc
  | [], _, g, acc, r => (g, acc, r)
  | w :: rest, i, g, acc, r =>
    let word := upperStr w
    let color := COLORS.getD (i % COLORS.length) ""
    match tryPlaceGen size word 100 g r with
    | (some ps, g', r') =>
      genLoop size rest (i + 1) g' (acc ++ [⟨word, ps, color⟩]) r'
    | (none, g', r') => genLoop size rest (i + 1) g' acc r'

/-- `generatePuzzle(words, size)` of `src/lib/puzzle-generator.ts`.  Every
array access in the source on this path is guarded by an explicit bounds
check, so the function is total (it never throws). -/
def generatePuzzle (words : List Str) (size : Nat) (r : RandSrc) :
    Puzzle × RandSrc :=
  let grid0 : Grid := List.replicate size (List.replicate size none)
  let (g, placed, r1) := genLoop size (jsSortLenDesc words) 0 grid0 [] r
  let (g2, r2) := fillRandomLetters size g r1
  (⟨g2, placed⟩, r2)

/-! ## `src/GameLogic.ts` -/

/-- The four directions of `GameLogic.ts`. -/
inductive Dir4 where
  | h | v | df | db
deriving DecidableEq, Repr

/-- The `directions` array of `getRandomDirection`, in source order. -/
def dirs4 : List Dir4 := [.h, .v, .df, .db]

/-- `getNextPosition(startRow, startCol, direction, offset)`. -/
def getNextPosition (sr sc : Int) (d : Dir4) (i : Nat) : Int × Int :=
  match d with
  | .h => (sr, sc + i)
  | .v => (sr + i, sc)
  | .df => (sr + i, sc + i)
  | .db => (sr + i, sc - i)

/-- One placement record of `GameLogic.ts` (`WordPosition`). -/
structure WordPosition where
  word : Str
  startRow : Int
  startCol : Int
  direction : Dir4
  positions : List (Int × Int)
deriving DecidableEq, Repr

/-- The mutable state of a `WordSearchGame` instance.  `foundWords` models the
JS `Set<string>` as its insertion-ordered list of distinct elements. -/
structure GameState where
  size : Nat
  grid : Grid
  words : List Str
  wordPositions : List WordPosition
  foundWords : List Str
deriving DecidableEq, Repr

/-- `getRandomDirection()`. -/
def getRandomDirection (r : RandSrc) : Dir4 × RandSrc :=
  let (v, r1) := r.draw 4
  (dirs4.getD v.toNat .h, r1)

/-- `getRandomPosition(direction, wordLength)` (row drawn before column in
every case, as in the source `switch`). -/
def getRandomPosition (size : Nat) (d : Dir4) (len : Nat) (r : RandSrc) :
    Int × Int × RandSrc :=
  let n : Int := (size : Int) - (len : Int) + 1
  match d with
  | .h =>
    let (row, r1) := r.draw (size : Int)
    let (col, r2) := r1.draw n
    (row, col, r2)
  | .v =>
    let (row, r1) := r.draw n
    let (col, r2) := r1.draw (size : Int)
    (row, col, r2)
  | .df =>
    let (row, r1) := r.draw n
    let (col, r2) := r1.draw n
    (row, col, r2)
  | .db =>
    let (row, r1) := r.draw n
    let (col, r2) := r1.draw n
    (row, (len : Int) - 1 + col, r2)

/-- `canPlaceWord(word, row, col, direction, grid)`.  The source reads
`grid[r][c]` with no bounds check: a row index outside the grid makes
`grid[r]` `undefined` and the subsequent `[c]` throw (`Except.error ()`);
a column index outside the row yields the value `undefined`, which fails the
`existing !== '' && existing !== word[i]` test and returns `false`. -/
def canPlaceWord (g : Grid) (w : Str) (row col : Int) (d : Dir4) :
    Nat → Str → Except Unit Bool
  | _, [] => .ok true
  | i, ch :: rest =>
    let p := getNextPosition row col d i
    match jsIndex g p.1 with
    | none => .error ()
    | some rowArr =>
      match jsIndex rowArr p.2 with
      | none => .ok false
      | some none => canPlaceWord g w row col d (i + 1) rest
      | some (some ex) =>
        if ex = ch then canPlaceWord g w row col d (i + 1) rest else .ok false

/-- `insertWord(word, row, col, direction, grid)`: write each letter and
record its cell, returning the ordered cell list and the updated grid. -/
def insertWord (g : Grid) (w : Str) (row col : Int) (d : Dir4) :
    Nat → Str → List (Int × Int) × Grid
  | _, [] => ([], g)
  | i, ch :: rest =>
    let p := getNextPosition row col d i
    let g1 := setCell g p.1.toNat p.2.toNat ch
    let (ps, g2) := insertWord g1 w row col d (i + 1) rest
    (p :: ps, g2)

/-- The `while (attempts < maxAttempts)` loop of `placeWord`: each attempt
draws a direction and a start and tests `canPlaceWord`; on success the word
is inserted and its placement data returned. -/
def attemptLoop (size : Nat) (w : Str) :
    Nat → Grid → RandSrc →
    Except Unit (Option (List (Int × Int) × Int × Int × Dir4) × Grid × RandSrc)
  | 0, g, r => .ok (none, g, r)
  | fuel + 1, g, r =>
    let (d, r1) := getRandomDirection r
    let (row, col, r2) := getRandomPosition size d w.length r1
    match canPlaceWord g w row col d 0 w with
    | .error e => .error e
    | .ok true =>
      let (ps, g') := insertWord g w row col d 0 w
      .ok (some (ps, row, col, d), g', r2)
    | .ok false => attemptLoop size w fuel g r2

/-- `placeWord(word, grid)`: 100 primary attempts, then one fallback attempt
with the reversed word; the fallback records the original `word` text but the
reversed word's written cells. -/
def placeWord (size : Nat) (w : Str) (g : Grid) (wps : List WordPosition)
    (r : RandSrc) :
    Except Unit (Grid × List WordPosition × RandSrc) :=
  match attemptLoop size w 100 g r with
  | .error e => .error e
  | .ok (some (ps, row, col, d), g', r') =>
    .ok (g', wps ++ [⟨w, row, col, d, ps⟩], r')
  | .ok (none, g', r') =>
    let rw := w.reverse
    let (d, r1) := getRandomDirection r'
    let (row, col, r2) := getRandomPosition size d rw.length r1
    match canPlaceWord g' rw row col d 0 rw with
    | .error e => .error e
    | .ok true =>
      let (ps, g2) := insertWord g' rw row col d 0 rw
      .ok (g2, wps ++ [⟨w, row, col, d, ps⟩], r2)
    | .ok false => .ok (g', wps, r2)

/-- The word loop of `generateGrid`: place each word of `this.words` in input
order. -/
def placeAllWords (size : Nat) :
    List Str → Grid → List WordPosition → RandSrc →
    Except Unit (Grid × List WordPosition × RandSrc)
  | [], g, wps, r => .ok (g, wps, r)
  | w :: rest, g, wps, r =>
    match placeWord size w g wps r with
    | .error e => .error e
    | .ok (g', wps', r') => placeAllWords size rest g' wps' r'

/-- The `WordSearchGame` constructor: uppercase the word list, run
`generateGrid` (placement then `fillRandomLetters`), and start with an empty
found set.  Construction throws (`Except.error`) exactly when some
`canPlaceWord` walk leaves the grid row range. -/
def WordSearchGame.new (words : List Str) (size : Nat) (r : RandSrc) :
    Except Unit (GameState × RandSrc) :=
  let ws := words.map upperStr
  let grid0 : Grid := List.replicate size (List.replicate size none)
  match placeAllWords size ws grid0 [] r with
  | .error e => .error e
  | .ok (g, wps, r1) =>
    let (g2, r2) := fillRandomLetters size g r1
    .ok (⟨size, g2, ws, wps, []⟩, r2)

/-- `markWordAsFound(word)`: add the uppercased word to the found set. -/
def markWordAsFound (s : GameState) (w : Str) : GameState :=
  let u := upperStr w
  if u ∈ s.foundWords then s else { s with foundWords := s.foundWords ++ [u] }

/-- `isWordFound(word)`. -/
def isWordFound (s : GameState) (w : Str) : Bool :=
  upperStr w ∈ s.foundWords

/-- One grid read of `checkSelection`'s string building
(`this.grid[row][col]` then `join('')`): a row index outside the grid throws;
a column miss yields `undefined` and contributes nothing to the joined
string, as does a vacant `''` cell. -/
def readCellJs (g : Grid) (p : Int × Int) : Except Unit Str :=
  match jsIndex g p.1 with
  | none => .error ()
  | some rowArr =>
    match jsIndex rowArr p.2 with
    | none => .ok []
    | some none => .ok []
    | some (some ch) => .ok [ch]

/-- `cells.map(({row, col}) => this.grid[row][col]).join('')`. -/
def readCellsJs (g : Grid) : List (Int × Int) → Except Unit Str
  | [] => .ok []
  | p :: ps =>
    match readCellJs g p with
    | .error e => .error e
    | .ok s =>
      match readCellsJs g ps with
      | .error e => .error e
      | .ok rest => .ok (s ++ rest)

/-- The candidate scan of `checkSelection`: for each not-yet-found placement
whose deduplicated cell set has the selection's size and is contained in the
selection's cell set, compare the selection's letters against the placement's
letters, their reversals, and the stored word text; mark and return the first
match. -/
def scanPositions (s : GameState) (sel : List (Int × Int))
    (selSet : List (Int × Int)) :
    List WordPosition → Except Unit (Option Str × GameState)
  | [] => .ok (none, s)
  | wp :: rest =>
    if isWordFound s wp.word then scanPositions s sel selSet rest
    else
      let wpSet := wp.positions.dedup
      if wpSet.length ≠ selSet.length then scanPositions s sel selSet rest
      else if ¬ (wpSet.all (· ∈ selSet)) then scanPositions s sel selSet rest
      else
        match readCellsJs s.grid wp.positions with
        | .error e => .error e
        | .ok wordLetters =>
          match readCellsJs s.grid sel with
          | .error e => .error e
          | .ok selectedWord =>
            if selectedWord = wordLetters ∨
               selectedWord = wordLetters.reverse ∨
               selectedWord.reverse = wordLetters ∨
               selectedWord.reverse = wordLetters.reverse ∨
               selectedWord = wp.word ∨
               selectedWord.reverse = wp.word then
              .ok (some wp.word, markWordAsFound s wp.word)
            else scanPositions s sel selSet rest

/-- `checkSelection(selectedCells)`: reject selections shorter than 2, then
scan the placements against the deduplicated selection cell set. -/
def checkSelection (s : GameState) (sel : List (Int × Int)) :
    Except Unit (Option Str × GameState) :=
  if sel.length < 2 then .ok (none, s)
  else scanPositions s sel sel.dedup s.wordPositions

/-! ## Specification-level definitions -/

/-- A cell coordinate lies inside the `size × size` grid. -/
def inBounds (size : Nat) (p : Int × Int) : Prop :=
  0 ≤ p.1 ∧ p.1 < (size : Int) ∧ 0 ≤ p.2 ∧ p.2 < (size : Int)

instance (size : Nat) (p : Int × Int) : Decidable (inBounds size p) := by
  unfold inBounds; infer_instance

/-- The grid is a `size × size` matrix. -/
def gridDims (size : Nat) (g : Grid) : Prop :=
  g.length = size ∧ ∀ row ∈ g, row.length = size

instance (size : Nat) (g : Grid) : Decidable (gridDims size g) := by
  unfold gridDims; infer_instance

/-- Every in-range cell holds a letter (no `''` cell remains). -/
def gridFilled (size : Nat) (g : Grid) : Prop :=
  ∀ r < size, ∀ c < size, (cellAt g r c).isSome

instance (size : Nat) (g : Grid) : Decidable (gridFilled size g) := by
  unfold gridFilled; infer_instance

/-- Every letter present in the grid satisfies `P`. -/
def gridOk (P : Char → Prop) (g : Grid) : Prop :=
  ∀ r c ch, cellAt g r c = some ch → P ch

/-- `c` is an uppercase ASCII letter. -/
def isAZ (c : Char) : Prop := 'A' ≤ c ∧ c ≤ 'Z'

instance (c : Char) : Decidable (isAZ c) := by
  unfold isAZ; infer_instance

/-- Well-formedness of one placement record against the final grid: the cell
list matches the word in length, repeats no cell, stays in bounds, reads back
as the word or its reversal, and the stored text is uppercase-normalized. -/
def WFwp (size : Nat) (g : Grid) (wp : WordPosition) : Prop :=
  wp.positions.length = wp.word.length ∧
  wp.positions.Nodup ∧
  (∀ p ∈ wp.positions, inBounds size p) ∧
  (wp.positions.map (readCellTot g) = wp.word.map some ∨
   wp.positions.map (readCellTot g) = wp.word.reverse.map some) ∧
  upperStr wp.word = wp.word

instance (size : Nat) (g : Grid) (wp : WordPosition) : Decidable (WFwp size g wp) := by
  unfold WFwp; infer_instance

/-- Well-formedness of a game state (established by construction, preserved
by `checkSelection`). -/
def WF (s : GameState) : Prop :=
  gridDims s.size s.grid ∧ ∀ wp ∈ s.wordPositions, WFwp s.size s.grid wp

instance (s : GameState) : Decidable (WF s) := by
  unfold WF; infer_instance

/-- The claim-level matching condition for one placement: the word is not yet
found, the selection's cell set equals the word's cell set (equal sizes and
mutual membership), and the letters read at the selection in drag order equal
the letters read at the word's recorded cells, their reversal, or the stored
uppercase text. -/
def claimMatch (s : GameState) (sel : List (Int × Int)) (wp : WordPosition) :
    Bool :=
  let selSet := sel.dedup
  let wpSet := wp.positions.dedup
  let canon := readLetters s.grid wp.positions
  let cand := readLetters s.grid sel
  decide (wp.word ∉ s.foundWords) &&
  decide (selSet.length = wpSet.length) &&
  decide (∀ p ∈ wpSet, p ∈ selSet) &&
  decide (∀ p ∈ selSet, p ∈ wpSet) &&
  decide (cand = canon ∨ cand = canon.reverse ∨ cand = wp.word)

/-- The result `checkSelection` is claimed to produce: the first placement
satisfying `claimMatch` is reported and appended to the found set; otherwise
no match and no state change. -/
def claimResult (s : GameState) (sel : List (Int × Int)) :
    Option Str × GameState :=
  match s.wordPositions.find? (claimMatch s sel) with
  | none => (none, s)
  | some wp => (some wp.word, { s with foundWords := s.foundWords ++ [wp.word] })

/-- The session states reachable through the public game loop: a state
produced by the constructor, or the state after any `checkSelection` call on
a reachable state (within the repository, `foundWords` is mutated through
`checkSelection` only). -/
inductive Reachable : GameState → Prop where
  | init (words : List Str) (size : Nat) (r r' : RandSrc) (s : GameState)
      (h : WordSearchGame.new words size r = .ok (s, r')) : Reachable s
  | step (s : GameState) (sel : List (Int × Int)) (o : Option Str)
      (s' : GameState) (h : Reachable s)
      (hc : checkSelection s sel = .ok (o, s')) : Reachable s'

/-- For each placement of a constructed game, the stored text paired with the
letters read back from the final grid at its recorded cells. -/
def gameReadbacks (e : Except Unit (GameState × RandSrc)) :
    Option (List (Str × Str)) :=
  match e with
  | .error _ => none
  | .ok (s, _) =>
    some (s.wordPositions.map fun wp => (wp.word, readLetters s.grid wp.positions))

/-- The same read-back view for a generated `Puzzle`. -/
def puzzleReadbacks (p : Puzzle) : List (Str × Str) :=
  p.placedWords.map fun e => (e.word, readLetters p.grid e.positions)

/-- Descending-length order on word lists. -/
def lenSortedDesc (ws : List Str) : Prop :=
  ws.Pairwise (fun a b => b.length ≤ a.length)

instance (ws : List Str) : Decidable (lenSortedDesc ws) := by
  unfold lenSortedDesc; infer_instance

/-- The all-zero random stream. -/
def streamZero : RandSrc := ⟨fun _ => 0, 0⟩

/-- Stream driving the `C1` counterexample: place `"AB"`, fail `"BA"` on all
100 primary attempts, then place the fallback reversal `"AB"` on row 1. -/
def c1Stream : RandSrc := ⟨fun i => if i = 304 then 1 else 0, 0⟩

/-- Stream driving the `C4` counterexample: place `"AB"` horizontally, fail
`"CA"` 100 times, then place its reversal `"AC"` vertically through the
shared `'A'` cell. -/
def c4Stream : RandSrc := ⟨fun i => if i = 303 then 1 else 0, 0⟩

/-- Stream driving the `C5` counterexample: first attempt draws the vertical
direction and start row `-1` for a word longer than the grid. -/
def c5Stream : RandSrc := ⟨fun i => if i = 0 then 1 else if i = 1 then -1 else 0, 0⟩

/-- Grid growth: any letter present stays in place (vacant cells may fill). -/
def GridExtends (g g' : Grid) : Prop :=
  ∀ r c ch, cellAt g r c = some ch → cellAt g' r c = some ch

/-- Well-formedness of one generated placement against a grid: cell count
matches the word, no repeated cell, all cells in bounds, and the grid reads
back exactly the word at the recorded cells in order. -/
def PlacedOk (size : Nat) (g : Grid) (e : PlacedWord) : Prop :=
  e.positions.length = e.word.length ∧
  e.positions.Nodup ∧
  (∀ p ∈ e.positions, inBounds size p) ∧
  e.positions.map (readCellTot g) = e.word.map some

instance (size : Nat) (g : Grid) (e : PlacedWord) : Decidable (PlacedOk size g e) := by
  unfold PlacedOk; infer_instance

/-- A small concrete session: the state produced by
`WordSearchGame.new [['A','B']] 2 streamZero`. -/
def demoState : GameState :=
  ⟨2, [[some 'A', some 'B'], [some 'A', some 'A']], [['A', 'B']],
    [⟨['A', 'B'], 0, 0, Dir4.h, [(0, 0), (0, 1)]⟩], []⟩

/-- `demoState` after the selection `[(0,0),(0,1)]` finds `"AB"`. -/
def demoFound : GameState :=
  ⟨2, [[some 'A', some 'B'], [some 'A', some 'A']], [['A', 'B']],
    [⟨['A', 'B'], 0, 0, Dir4.h, [(0, 0), (0, 1)]⟩], [['A', 'B']]⟩

/-! ## Basic lemmas on indexing and cell updates -/

theorem jsIndex_eq (l : List α) (i : Int) :
    jsIndex l i = if 0 ≤ i then l.get? i.toNat else none := by
  unfold jsIndex
  by_cases h0 : 0 ≤ i
  · by_cases hl : i.toNat < l.length
    · rw [dif_pos ⟨h0, hl⟩, if_pos h0, List.get?_eq_get hl]
    · rw [dif_neg fun h => hl h.2, if_pos h0,
        (List.get?_eq_none).2 (Nat.le_of_not_lt hl)]
  · rw [dif_neg fun h => h0 h.1, if_neg h0]

theorem jsIndex_eq_some {l : List α} {i : Int} {x : α} :
    jsIndex l i = some x ↔ 0 ≤ i ∧ l.get? i.toNat = some x := by
  rw [jsIndex_eq]
  by_cases h0 : 0 ≤ i
  · simp [h0]
  · simp [h0]

theorem cellAt_eq (g : Grid) (r c : Nat) :
    cellAt g r c = (((g.get? r).getD []).get? c).getD none := by
  unfold cellAt
  rw [List.getD_eq_get?, List.getD_eq_get?]

theorem length_setCell (g : Grid) (r c : Nat) (ch : Char) :
    (setCell g r c ch).length = g.length := List.length_set ..

theorem get?_setCell_ne (g : Grid) (r c : Nat) (ch : Char) (r' : Nat)
    (h : r' ≠ r) : (setCell g r c ch).get? r' = g.get? r' :=
  List.get?_set_ne _ _ (fun e => h e.symm)

theorem cellAt_setCell_ne (g : Grid) (r c : Nat) (ch : Char) (r' c' : Nat)
    (h : (r', c') ≠ (r, c)) :
    cellAt (setCell g r c ch) r' c' = cellAt g r' c' := by
  rcases eq_or_ne r' r with rfl | hr
  · have hc : c' ≠ c := fun e => h (by rw [e])
    rw [cellAt_eq, cellAt_eq]
    unfold setCell
    by_cases hl : r' < g.length
    · rw [List.get?_set_eq_of_lt _ hl]
      simp only [Option.getD_some]
      rw [List.getD_eq_get?, List.get?_set_ne _ _ (fun e => hc e.symm)]
    · rw [List.set_eq_of_length_le (Nat.le_of_not_lt hl)]
  · rw [cellAt_eq, cellAt_eq]
    unfold setCell
    by_cases hl : r < g.length
    · rw [List.get?_set_ne _ _ (fun e => hr e.symm)]
    · rw [List.set_eq_of_length_le (Nat.le_of_not_lt hl)]

theorem cellAt_setCell_self (g : Grid) (r c : Nat) (ch : Char)
    (hr : r < g.length) (hc : c < (g.getD r []).length) :
    cellAt (setCell g r c ch) r c = some ch := by
  rw [cellAt_eq]
  unfold setCell
  rw [List.get?_set_eq_of_lt _ hr]
  simp only [Option.getD_some]
  rw [List.getD_eq_get?] at hc ⊢
  rw [List.get?_set_eq_of_lt _ (by simpa using hc)]
  rfl

theorem setCell_of_length_le {g : Grid} {r : Nat} (h : g.length ≤ r)
    (c : Nat) (ch : Char) : setCell g r c ch = g :=
  List.set_eq_of_length_le h

theorem getD_eq_get {l : List α} {n : Nat} (h : n < l.length) (d : α) :
    l.getD n d = l.get ⟨n, h⟩ := by
  rw [List.getD_eq_get?, List.get?_eq_get h, Option.getD_some]

theorem dims_setCell {size : Nat} {g : Grid} (h : gridDims size g)
    (r c : Nat) (ch : Char) : gridDims size (setCell g r c ch) := by
  by_cases hl : r < g.length
  · obtain ⟨hlen, hrow⟩ := h
    refine ⟨(length_setCell ..).trans hlen, fun row hm => ?_⟩
    rcases List.mem_or_eq_of_mem_set hm with hm | rfl
    · exact hrow _ hm
    · rw [List.length_set, getD_eq_get hl]
      exact hrow _ (List.get_mem ..)
  · rw [setCell_of_length_le (Nat.le_of_not_lt hl)]
    exact h

theorem GridExtends.rfl (g : Grid) : GridExtends g g := fun _ _ _ h => h

theorem GridExtends.trans {g1 g2 g3 : Grid} (h1 : GridExtends g1 g2)
    (h2 : GridExtends g2 g3) : GridExtends g1 g3 :=
  fun r c ch h => h2 r c ch (h1 r c ch h)

theorem readCellTot_nonneg {g : Grid} {p : Int × Int} (h1 : 0 ≤ p.1)
    (h2 : 0 ≤ p.2) : readCellTot g p = cellAt g p.1.toNat p.2.toNat := by
  unfold readCellTot
  rw [if_neg]
  push_neg
  omega

theorem readCellTot_some {g : Grid} {p : Int × Int} {ch : Char}
    (h : readCellTot g p = some ch) :
    0 ≤ p.1 ∧ 0 ≤ p.2 ∧ cellAt g p.1.toNat p.2.toNat = some ch := by
  unfold readCellTot at h
  by_cases hn : p.1 < 0 ∨ p.2 < 0
  · rw [if_pos hn] at h
    exact absurd h (by simp)
  · rw [if_neg hn] at h
    push_neg at hn
    exact ⟨hn.1, hn.2, h⟩

theorem GridExtends.readSome {g g' : Grid} (h : GridExtends g g')
    {p : Int × Int} {ch : Char} (hr : readCellTot g p = some ch) :
    readCellTot g' p = some ch := by
  obtain ⟨h1, h2, hc⟩ := readCellTot_some hr
  rw [readCellTot_nonneg h1 h2]
  exact h _ _ _ hc

theorem GridExtends.readMap {g g' : Grid} (h : GridExtends g g')
    {ps : List (Int × Int)} {w : Str}
    (hm : ps.map (readCellTot g) = w.map some) :
    ps.map (readCellTot g') = w.map some := by
  induction ps generalizing w with
  | nil => cases w with
    | nil => rfl
    | cons ch w' => exact absurd hm (by simp)
  | cons p ps' ih =>
    cases w with
    | nil => exact absurd hm (by simp)
    | cons ch w' =>
      simp only [List.map_cons, List.cons.injEq] at hm ⊢
      exact ⟨h.readSome hm.1, ih hm.2⟩

/-- The cells two distinct nonnegative coordinates address are distinct. -/
theorem toNat_cell_ne {p q : Int × Int} (hp1 : 0 ≤ p.1) (hp2 : 0 ≤ p.2)
    (hq1 : 0 ≤ q.1) (hq2 : 0 ≤ q.2) (h : p ≠ q) :
    (p.1.toNat, p.2.toNat) ≠ (q.1.toNat, q.2.toNat) := by
  intro he
  apply h
  have h1 := congrArg Prod.fst he
  have h2 := congrArg Prod.snd he
  simp only at h1 h2
  have : p.1 = q.1 := by omega
  have : p.2 = q.2 := by omega
  exact Prod.ext (by omega) (by omega)

theorem cellAt_writeCells_ne {l : List ((Int × Int) × Char)} {r c : Nat}
    (h : ∀ pc ∈ l, (pc.1.1.toNat, pc.1.2.toNat) ≠ (r, c)) (g : Grid) :
    cellAt (writeCells g l) r c = cellAt g r c := by
  induction l generalizing g with
  | nil => rfl
  | cons pc rest ih =>
    rw [writeCells, ih (fun x hx => h x (List.mem_cons_of_mem _ hx)),
      cellAt_setCell_ne _ _ _ _ _ _ (h pc (List.mem_cons_self ..)).symm]

theorem dims_writeCells {size : Nat} {l : List ((Int × Int) × Char)}
    {g : Grid} (h : gridDims size g) : gridDims size (writeCells g l) := by
  induction l generalizing g with
  | nil => exact h
  | cons pc rest ih => exact ih (dims_setCell h ..)

theorem toNat_lt_of_inBounds {size : Nat} {p : Int × Int}
    (h : inBounds size p) : p.1.toNat < size ∧ p.2.toNat < size := by
  obtain ⟨h1, h2, h3, h4⟩ := h
  omega

theorem cellAt_setCell_self_dims {size : Nat} {g : Grid} {p : Int × Int}
    (hd : gridDims size g) (hb : inBounds size p) (ch : Char) :
    cellAt (setCell g p.1.toNat p.2.toNat ch) p.1.toNat p.2.toNat = some ch := by
  obtain ⟨hr, hc⟩ := toNat_lt_of_inBounds hb
  refine cellAt_setCell_self g _ _ ch (hd.1 ▸ hr) ?_
  rw [getD_eq_get (hd.1 ▸ hr)]
  rw [hd.2 _ (List.get_mem ..)]
  exact hc

theorem writeCells_readback {size : Nat} {g : Grid} {ps : List (Int × Int)}
    {w : Str} (hd : gridDims size g) (hlen : ps.length = w.length)
    (hnd : ps.Nodup) (hb : ∀ p ∈ ps, inBounds size p) :
    ps.map (readCellTot (writeCells g (ps.zip w))) = w.map some := by
  induction ps generalizing w g with
  | nil =>
    cases w with
    | nil => rfl
    | cons ch w' => exact absurd hlen (by simp)
  | cons p ps' ih =>
    cases w with
    | nil => exact absurd hlen (by simp)
    | cons ch w' =>
      have hbp := hb p (List.mem_cons_self ..)
      have hb' : ∀ q ∈ ps', inBounds size q :=
        fun q hq => hb q (List.mem_cons_of_mem _ hq)
      have hg1 : gridDims size (setCell g p.1.toNat p.2.toNat ch) :=
        dims_setCell hd ..
      rw [List.zip_cons_cons, writeCells, List.map_cons, List.map_cons]
      refine congrArg₂ _ ?_ ?_
      · rw [readCellTot_nonneg hbp.1 hbp.2.2.1]
        rw [cellAt_writeCells_ne ?hne]
        · exact cellAt_setCell_self_dims hd hbp ch
        · intro pc hpc
          have hfst := (List.of_mem_zip hpc).1
          have hpne : pc.1 ≠ p := by
            intro e
            exact (List.nodup_cons.1 hnd).1 (e ▸ hfst)
          exact toNat_cell_ne (hb' _ hfst).1 (hb' _ hfst).2.2.1
            hbp.1 hbp.2.2.1 hpne
      · exact ih hg1 (by simpa using hlen) (List.nodup_cons.1 hnd).2 hb'

theorem writeCells_extends {size : Nat} {g : Grid} {ps : List (Int × Int)}
    {w : Str} (hd : gridDims size g) (hlen : ps.length = w.length)
    (hnd : ps.Nodup) (hb : ∀ p ∈ ps, inBounds size p)
    (hok : ∀ pc ∈ ps.zip w,
      readCellTot g pc.1 = none ∨ readCellTot g pc.1 = some pc.2) :
    GridExtends g (writeCells g (ps.zip w)) := by
  induction ps generalizing w g with
  | nil => exact fun _ _ _ hch => hch
  | cons p ps' ih =>
    cases w with
    | nil => exact fun _ _ _ hch => hch
    | cons ch w' =>
      have hbp := hb p (List.mem_cons_self ..)
      have hb' : ∀ q ∈ ps', inBounds size q :=
        fun q hq => hb q (List.mem_cons_of_mem _ hq)
      have hg1 : gridDims size (setCell g p.1.toNat p.2.toNat ch) :=
        dims_setCell hd ..
      rw [List.zip_cons_cons, writeCells]
      have hstep : GridExtends g (setCell g p.1.toNat p.2.toNat ch) := by
        intro r c x hx
        by_cases hrc : (r, c) = (p.1.toNat, p.2.toNat)
        · obtain ⟨e1, e2⟩ := Prod.mk.injEq .. ▸ hrc
          subst e1; subst e2
          rcases hok (p, ch) (by simp) with hnone | hsome
          · rw [readCellTot_nonneg hbp.1 hbp.2.2.1] at hnone
            rw [hnone] at hx
            exact absurd hx (by simp)
          · rw [readCellTot_nonneg hbp.1 hbp.2.2.1] at hsome
            rw [hsome] at hx
            rw [← hx]
            exact cellAt_setCell_self_dims hd hbp ch
        · rw [cellAt_setCell_ne _ _ _ _ _ _ hrc]
          exact hx
      refine hstep.trans (ih hg1 (by simpa using hlen)
        (List.nodup_cons.1 hnd).2 hb' ?_)
      intro pc hpc
      have hfst := (List.of_mem_zip hpc).1
      have hpne : pc.1 ≠ p := by
        intro e
        exact (List.nodup_cons.1 hnd).1 (e ▸ hfst)
      have hcellne := toNat_cell_ne (hb' _ hfst).1 (hb' _ hfst).2.2.1
        hbp.1 hbp.2.2.1 hpne
      have := hok pc (List.mem_cons_of_mem _ hpc)
      rw [readCellTot_nonneg (hb' _ hfst).1 (hb' _ hfst).2.2.1] at this
      rw [readCellTot_nonneg (hb' _ hfst).1 (hb' _ hfst).2.2.1,
        cellAt_setCell_ne g p.1.toNat p.2.toNat ch _ _ hcellne]
      exact this

theorem readLetters_of_map_some {g : Grid} {ps : List (Int × Int)} {w : Str}
    (h : ps.map (readCellTot g) = w.map some) : readLetters g ps = w := by
  induction ps generalizing w with
  | nil =>
    cases w with
    | nil => rfl
    | cons ch w' => exact absurd h (by simp)
  | cons p ps' ih =>
    cases w with
    | nil => exact absurd h (by simp)
    | cons ch w' =>
      simp only [List.map_cons, List.cons.injEq] at h
      unfold readLetters
      rw [List.foldr_cons, h.1]
      exact congrArg _ (ih h.2)

theorem getD_letters_mem (v : Nat) : letters.getD v 'A' ∈ letters := by
  rcases Nat.lt_or_ge v letters.length with hlt | hge
  · rw [getD_eq_get hlt]
    exact List.get_mem ..
  · rw [List.getD_eq_get?, (List.get?_eq_none).2 hge]
    simp [letters]

theorem cellAt_setCell_self_nat {size : Nat} {g : Grid} {r c : Nat}
    (hd : gridDims size g) (hr : r < size) (hc : c < size) (ch : Char) :
    cellAt (setCell g r c ch) r c = some ch := by
  refine cellAt_setCell_self g _ _ ch (hd.1 ▸ hr) ?_
  rw [getD_eq_get (hd.1 ▸ hr), hd.2 _ (List.get_mem ..)]
  exact hc

theorem cellAt_setCell_cases (g : Grid) (r c : Nat) (ch : Char) (r' c' : Nat) :
    cellAt (setCell g r c ch) r' c' = cellAt g r' c' ∨
    cellAt (setCell g r c ch) r' c' = some ch := by
  by_cases hrc : (r', c') = (r, c)
  · obtain ⟨e1, e2⟩ := Prod.mk.injEq .. ▸ hrc
    subst e1; subst e2
    by_cases hr : r' < g.length
    · by_cases hc : c' < (g.getD r' []).length
      · exact Or.inr (cellAt_setCell_self g r' c' ch hr hc)
      · refine Or.inl ?_
        rw [cellAt_eq, cellAt_eq]
        unfold setCell
        rw [List.get?_set_eq_of_lt _ hr, Option.getD_some]
        rw [List.getD_eq_get?] at hc
        have hlen : ((g.get? r').getD []).length ≤ c' := by
          rcases e : (g.get? r') with _ | row
          · simp
          · rw [e] at hc
            simp only [Option.getD_some] at hc
            exact Nat.le_of_not_lt hc
        rw [(List.get?_eq_none).2 (by simpa using hlen),
          (List.get?_eq_none).2 hlen]
    · rw [setCell_of_length_le (Nat.le_of_not_lt hr)]
      exact Or.inl rfl
  · exact Or.inl (cellAt_setCell_ne _ _ _ _ _ _ hrc)

theorem setCell_extends_of_none {g : Grid} {r c : Nat}
    (h : cellAt g r c = none) (ch : Char) :
    GridExtends g (setCell g r c ch) := by
  intro r' c' x hx
  rcases eq_or_ne (r', c') (r, c) with he | hne
  · obtain ⟨e1, e2⟩ := Prod.mk.injEq .. ▸ he
    subst e1; subst e2
    rw [h] at hx
    exact absurd hx (by simp)
  · rw [cellAt_setCell_ne _ _ _ _ _ _ hne]
    exact hx

theorem fillCellStep_extends (row col : Nat) (st : Grid × RandSrc) :
    GridExtends st.1 (fillCellStep row col st).1 := by
  unfold fillCellStep
  rcases e : cellAt st.1 row col with _ | ch
  · exact setCell_extends_of_none e _
  · exact GridExtends.rfl _

theorem fillCellStep_dims {size : Nat} (row col : Nat) {st : Grid × RandSrc}
    (hd : gridDims size st.1) : gridDims size (fillCellStep row col st).1 := by
  unfold fillCellStep
  rcases cellAt st.1 row col with _ | ch
  · exact dims_setCell hd ..
  · exact hd

theorem fillCellStep_isSome {size : Nat} {row col : Nat} {st : Grid × RandSrc}
    (hd : gridDims size st.1) (hr : row < size) (hc : col < size) :
    (cellAt (fillCellStep row col st).1 row col).isSome := by
  unfold fillCellStep
  rcases e : cellAt st.1 row col with _ | ch
  · simp only
    rw [cellAt_setCell_self_nat hd hr hc]
    rfl
  · rw [e]
    rfl

theorem fillCellStep_gridOk {P : Char → Prop} {row col : Nat}
    {st : Grid × RandSrc} (hg : gridOk P st.1)
    (hP : ∀ ch ∈ letters, P ch) : gridOk P (fillCellStep row col st).1 := by
  unfold fillCellStep
  rcases cellAt st.1 row col with _ | ch
  · intro r c x hx
    rcases cellAt_setCell_cases st.1 row col _ r c with hsame | hnew
    · exact hg r c x (hsame ▸ hx)
    · rw [hnew] at hx
      cases hx
      exact hP _ (getD_letters_mem _)
  · exact hg

theorem GridExtends.isSome {g g' : Grid} (h : GridExtends g g') {r c : Nat}
    (hs : (cellAt g r c).isSome) : (cellAt g' r c).isSome := by
  rcases e : cellAt g r c with _ | ch
  · rw [e] at hs
    exact absurd hs (by simp)
  · rw [h r c ch e]
    rfl

theorem fillRow_extends (row : Nat) (cs : List Nat) (st : Grid × RandSrc) :
    GridExtends st.1 (cs.foldl (fun st col => fillCellStep row col st) st).1 := by
  induction cs generalizing st with
  | nil => exact GridExtends.rfl _
  | cons c cs' ih =>
    exact (fillCellStep_extends row c st).trans (ih (fillCellStep row c st))

theorem fillRow_dims {size : Nat} (row : Nat) (cs : List Nat)
    {st : Grid × RandSrc} (hd : gridDims size st.1) :
    gridDims size ((cs.foldl (fun st col => fillCellStep row col st) st).1) := by
  induction cs generalizing st with
  | nil => exact hd
  | cons c cs' ih => exact ih (fillCellStep_dims _ _ hd)

theorem fillRow_gridOk {P : Char → Prop} (row : Nat) (cs : List Nat)
    {st : Grid × RandSrc} (hg : gridOk P st.1) (hP : ∀ ch ∈ letters, P ch) :
    gridOk P ((cs.foldl (fun st col => fillCellStep row col st) st).1) := by
  induction cs generalizing st with
  | nil => exact hg
  | cons c cs' ih => exact ih (fillCellStep_gridOk hg hP)

theorem fillRow_isSome {size : Nat} {row : Nat} (cs : List Nat)
    {st : Grid × RandSrc} (hd : gridDims size st.1) (hr : row < size)
    (hcs : ∀ c ∈ cs, c < size) :
    ∀ c ∈ cs,
      (cellAt ((cs.foldl (fun st col => fillCellStep row col st) st).1)
        row c).isSome := by
  induction cs generalizing st with
  | nil => intro c hc; cases hc
  | cons c0 cs' ih =>
    intro c hc
    rw [List.foldl_cons]
    rcases List.mem_cons.1 hc with rfl | hc'
    · exact (fillRow_extends row cs' _).isSome
        (fillCellStep_isSome hd hr (hcs c (List.mem_cons_self ..)))
    · exact ih (fillCellStep_dims _ _ hd)
        (fun x hx => hcs x (List.mem_cons_of_mem _ hx)) c hc'

theorem fillOuter_extends (cs rs : List Nat) (st : Grid × RandSrc) :
    GridExtends st.1
      ((rs.foldl (fun st row =>
        cs.foldl (fun st col => fillCellStep row col st) st) st).1) := by
  induction rs generalizing st with
  | nil => exact GridExtends.rfl _
  | cons row rs' ih => exact (fillRow_extends row cs st).trans (ih _)

theorem fillOuter_dims {size : Nat} (cs rs : List Nat) {st : Grid × RandSrc}
    (hd : gridDims size st.1) :
    gridDims size ((rs.foldl (fun st row =>
      cs.foldl (fun st col => fillCellStep row col st) st) st).1) := by
  induction rs generalizing st with
  | nil => exact hd
  | cons row rs' ih => exact ih (fillRow_dims row cs hd)

theorem fillOuter_gridOk {P : Char → Prop} (cs rs : List Nat)
    {st : Grid × RandSrc} (hg : gridOk P st.1) (hP : ∀ ch ∈ letters, P ch) :
    gridOk P ((rs.foldl (fun st row =>
      cs.foldl (fun st col => fillCellStep row col st) st) st).1) := by
  induction rs generalizing st with
  | nil => exact hg
  | cons row rs' ih => exact ih (fillRow_gridOk row cs hg hP)

theorem fillOuter_isSome {size : Nat} (rs : List Nat) {st : Grid × RandSrc}
    (hd : gridDims size st.1) (hrs : ∀ row ∈ rs, row < size) :
    ∀ row ∈ rs, ∀ c < size,
      (cellAt ((rs.foldl (fun st row =>
        (List.range size).foldl (fun st col => fillCellStep row col st) st)
          st).1) row c).isSome := by
  induction rs generalizing st with
  | nil => intro row hrow; cases hrow
  | cons row0 rs' ih =>
    intro row hrow c hc
    rw [List.foldl_cons]
    rcases List.mem_cons.1 hrow with rfl | hrow'
    · refine GridExtends.isSome (fillOuter_extends (List.range size) rs' _) ?_
      exact fillRow_isSome (List.range size) hd
        (hrs row (List.mem_cons_self ..)) (fun x hx => List.mem_range.1 hx)
        c (List.mem_range.2 hc)
    · exact ih (fillRow_dims row0 (List.range size) hd)
        (fun x hx => hrs x (List.mem_cons_of_mem _ hx)) row hrow' c hc

theorem fill_extends (size : Nat) (g : Grid) (r : RandSrc) :
    GridExtends g (fillRandomLetters size g r).1 :=
  fillOuter_extends (List.range size) (List.range size) (g, r)

theorem fill_dims {size : Nat} {g : Grid} (hd : gridDims size g)
    (r : RandSrc) : gridDims size (fillRandomLetters size g r).1 :=
  fillOuter_dims (List.range size) (List.range size) hd

theorem fill_gridOk (size : Nat) {P : Char → Prop} {g : Grid}
    (hg : gridOk P g) (hP : ∀ ch ∈ letters, P ch) (r : RandSrc) :
    gridOk P (fillRandomLetters size g r).1 :=
  fillOuter_gridOk (List.range size) (List.range size) hg hP

theorem fill_filled {size : Nat} {g : Grid} (hd : gridDims size g)
    (r : RandSrc) : gridFilled size (fillRandomLetters size g r).1 := by
  intro row hrow c hc
  exact fillOuter_isSome (List.range size) hd (fun x hx => List.mem_range.1 hx)
    row (List.mem_range.2 hrow) c hc

/-! ## The placement walk of `generatePuzzle` -/

theorem posAt8_inj (d : Dir8) (sr sc : Int) (len : Nat) {j j' : Nat}
    (hne : j ≠ j') : posAt8 d sr sc len j ≠ posAt8 d sr sc len j' := by
  cases d <;>
    (unfold posAt8
     intro he
     obtain ⟨e1, e2⟩ := Prod.mk.injEq .. ▸ he
     omega)

theorem checkCells_spec {size : Nat} {g : Grid} {d : Dir8} {sr sc : Int}
    {len : Nat} :
    ∀ {t : Str} {j : Nat} {ps : List (Int × Int)},
      checkCells size g d sr sc len j t = some ps →
      ps = (List.range t.length).map (fun k => posAt8 d sr sc len (j + k)) ∧
      (∀ p ∈ ps, inBounds size p) ∧
      (∀ pc ∈ ps.zip t,
        readCellTot g pc.1 = none ∨ readCellTot g pc.1 = some pc.2) := by
  intro t
  induction t with
  | nil =>
    intro j ps h
    simp only [checkCells, Option.some.injEq] at h
    subst h
    refine ⟨by simp, ?_, ?_⟩ <;> intro x hx <;> cases hx
  | cons ch rest ih =>
    intro j ps h
    simp only [checkCells] at h
    split at h
    · exact absurd h (by simp)
    · rename_i hbnd
      push_neg at hbnd
      obtain ⟨hb1, hb2, hb3, hb4⟩ := hbnd
      have hin : inBounds size (posAt8 d sr sc len j) := ⟨hb1, hb2, hb3, hb4⟩
      have hread : readCellTot g (posAt8 d sr sc len j) =
          cellAt g (posAt8 d sr sc len j).1.toNat
            (posAt8 d sr sc len j).2.toNat :=
        readCellTot_nonneg hin.1 hin.2.2.1
      have main : ∀ ps', checkCells size g d sr sc len (j + 1) rest = some ps' →
          (readCellTot g (posAt8 d sr sc len j) = none ∨
           readCellTot g (posAt8 d sr sc len j) = some ch) →
          ps = posAt8 d sr sc len j :: ps' →
          ps = (List.range (ch :: rest).length).map
            (fun k => posAt8 d sr sc len (j + k)) ∧
          (∀ p ∈ ps, inBounds size p) ∧
          (∀ pc ∈ ps.zip (ch :: rest),
            readCellTot g pc.1 = none ∨ readCellTot g pc.1 = some pc.2) := by
        intro ps' hrec hcell hps
        obtain ⟨hchar, hbnds, hzip⟩ := ih hrec
        subst hps
        refine ⟨?_, ?_, ?_⟩
        · rw [List.length_cons, List.range_succ_eq_map, List.map_cons]
          refine congrArg₂ _ (by rw [Nat.add_zero]) ?_
          rw [hchar, List.map_map]
          refine List.map_congr_left ?_
          intro k _
          exact congrArg _ (by omega)
        · intro p hp
          rcases List.mem_cons.1 hp with rfl | hp'
          · exact hin
          · exact hbnds p hp'
        · intro pc hpc
          rw [List.zip_cons_cons] at hpc
          rcases List.mem_cons.1 hpc with rfl | hpc'
          · exact hcell
          · exact hzip pc hpc'
      split at h
      · rename_i e
        obtain ⟨ps', hrec, hps⟩ := Option.map_eq_some'.1 h
        exact main ps' hrec (Or.inl (hread.trans e)) hps.symm
      · rename_i ex e
        split at h
        · rename_i hex
          subst hex
          obtain ⟨ps', hrec, hps⟩ := Option.map_eq_some'.1 h
          exact main ps' hrec (Or.inr (hread.trans e)) hps.symm
        · exact absurd h (by simp)

theorem checkCells_nodup {size : Nat} {g : Grid} {d : Dir8} {sr sc : Int}
    {len : Nat} {t : Str} {j : Nat} {ps : List (Int × Int)}
    (h : checkCells size g d sr sc len j t = some ps) : ps.Nodup := by
  obtain ⟨hchar, -, -⟩ := checkCells_spec h
  rw [hchar]
  refine List.Nodup.map_on ?_ (List.nodup_range _)
  intro x _ y _ he
  by_contra hne
  exact posAt8_inj d sr sc len (fun e => hne (by omega)) he

theorem checkCells_length {size : Nat} {g : Grid} {d : Dir8} {sr sc : Int}
    {len : Nat} {t : Str} {j : Nat} {ps : List (Int × Int)}
    (h : checkCells size g d sr sc len j t = some ps) :
    ps.length = t.length := by
  obtain ⟨hchar, -, -⟩ := checkCells_spec h
  rw [hchar, List.length_map, List.length_range]

theorem jsToUpper_idem (c : Char) : jsToUpper (jsToUpper c) = jsToUpper c := by
  by_cases h : 'a' ≤ c ∧ c ≤ 'z'
  · have h1 : (97 : Nat) ≤ c.toNat := Char.le_def.1 h.1
    have h2 : c.toNat ≤ 122 := Char.le_def.1 h.2
    have e1 : jsToUpper c = Char.ofNat (c.toNat - 32) := if_pos h
    have hv : (Char.ofNat (c.toNat - 32)).toNat = c.toNat - 32 := by
      rw [Char.ofNat, dif_pos (Or.inl (by omega))]
      rfl
    rw [e1]
    unfold jsToUpper
    rw [if_neg]
    intro hcon
    have h3 : (97 : Nat) ≤ (Char.ofNat (c.toNat - 32)).toNat :=
      Char.le_def.1 hcon.1
    rw [hv] at h3
    omega
  · have e1 : jsToUpper c = c := if_neg h
    rw [e1, e1]

theorem upperStr_idem (w : Str) : upperStr (upperStr w) = upperStr w := by
  unfold upperStr
  rw [List.map_map]
  exact List.map_congr_left fun c _ => jsToUpper_idem c

theorem upperStr_length (w : Str) : (upperStr w).length = w.length :=
  List.length_map ..

theorem posAt8_len_le {size : Nat} (d : Dir8) (sr sc : Int) {len : Nat}
    (hpos : 0 < len) (h0 : inBounds size (posAt8 d sr sc len 0))
    (h1 : inBounds size (posAt8 d sr sc len (len - 1))) : len ≤ size := by
  cases d <;>
    (unfold posAt8 at h0 h1
     obtain ⟨a0, a1, a2, a3⟩ := h0
     obtain ⟨b0, b1, b2, b3⟩ := h1
     simp only at a0 a1 a2 a3 b0 b1 b2 b3
     omega)

theorem checkCells_word_le {size : Nat} {g : Grid} {d : Dir8} {sr sc : Int}
    {w : Str} {ps : List (Int × Int)}
    (h : checkCells size g d sr sc w.length 0 w = some ps) :
    w.length ≤ size := by
  rcases Nat.eq_zero_or_pos w.length with hz | hpos
  · omega
  · obtain ⟨hchar, hbnd, -⟩ := checkCells_spec h
    have hm0 : posAt8 d sr sc w.length 0 ∈ ps := by
      rw [hchar]
      exact List.mem_map.2 ⟨0, List.mem_range.2 hpos, rfl⟩
    have hm1 : posAt8 d sr sc w.length (w.length - 1) ∈ ps := by
      rw [hchar]
      exact List.mem_map.2 ⟨w.length - 1, List.mem_range.2 (by omega),
        by rw [Nat.zero_add]⟩
    exact posAt8_len_le d sr sc hpos (hbnd _ hm0) (hbnd _ hm1)

theorem gridOk_writeCells {P : Char → Prop} {g : Grid}
    {l : List ((Int × Int) × Char)} (hg : gridOk P g)
    (hl : ∀ pc ∈ l, P pc.2) : gridOk P (writeCells g l) := by
  induction l generalizing g with
  | nil => exact hg
  | cons pc rest ih =>
    refine ih ?_ (fun x hx => hl x (List.mem_cons_of_mem _ hx))
    intro r c x hx
    rcases cellAt_setCell_cases g pc.1.1.toNat pc.1.2.toNat pc.2 r c
      with hsame | hnew
    · exact hg r c x (hsame ▸ hx)
    · rw [hnew] at hx
      cases hx
      exact hl pc (List.mem_cons_self ..)

theorem tryPlaceGen_spec {size : Nat} {w : Str} :
    ∀ {fuel : Nat} {g : Grid} {r : RandSrc} {res : Option (List (Int × Int))}
      {g' : Grid} {r' : RandSrc},
      tryPlaceGen size w fuel g r = (res, g', r') →
      (res = none ∧ g' = g) ∨
      (∃ ps d sr sc, res = some ps ∧
        checkCells size g d sr sc w.length 0 w = some ps ∧
        g' = placeLetters g ps w) := by
  intro fuel
  induction fuel with
  | zero =>
    intro g r res g' r' h
    simp only [tryPlaceGen, Prod.mk.injEq] at h
    exact Or.inl ⟨h.1.symm, h.2.1.symm⟩
  | succ fuel ih =>
    intro g r res g' r' h
    simp only [tryPlaceGen] at h
    rcases hds : drawStart8 size w.length
        (dirs8.getD (r.draw 8).1.toNat .h) (r.draw 8).2 with ⟨sr, sc, r2⟩
    rw [hds] at h
    rcases hcc : checkCells size g (dirs8.getD (r.draw 8).1.toNat .h) sr sc
        w.length 0 w with _ | ps
    · rw [hcc] at h
      exact ih h
    · rw [hcc] at h
      simp only [Prod.mk.injEq] at h
      exact Or.inr ⟨ps, _, sr, sc, h.1.symm, hcc, h.2.1.symm⟩

theorem PlacedOk.monoPlaced {size : Nat} {g g' : Grid} (hext : GridExtends g g')
    {e : PlacedWord} (h : PlacedOk size g e) : PlacedOk size g' e :=
  ⟨h.1, h.2.1, h.2.2.1, hext.readMap h.2.2.2⟩

theorem genLoop_inv {size : Nat} {P : Char → Prop} :
    ∀ (ws : List Str) (i : Nat) (g : Grid) (acc : List PlacedWord)
      (r : RandSrc),
      gridDims size g →
      (∀ e ∈ acc, PlacedOk size g e) →
      gridOk P g →
      (∀ w ∈ ws, ∀ c ∈ upperStr w, P c) →
      gridDims size (genLoop size ws i g acc r).1 ∧
      GridExtends g (genLoop size ws i g acc r).1 ∧
      gridOk P (genLoop size ws i g acc r).1 ∧
      (∀ e ∈ (genLoop size ws i g acc r).2.1,
        PlacedOk size (genLoop size ws i g acc r).1 e) ∧
      ∃ newE, (genLoop size ws i g acc r).2.1 = acc ++ newE ∧
        (newE.map PlacedWord.word).Sublist (ws.map upperStr) ∧
        (∀ e ∈ newE, e.word.length ≤ size) := by
  intro ws
  induction ws with
  | nil =>
    intro i g acc r hd hacc hg _
    simp only [genLoop]
    exact ⟨hd, GridExtends.rfl g, hg, hacc, [], by simp, List.nil_sublist _,
      fun e he => absurd he (List.not_mem_nil e)⟩
  | cons w rest ih =>
    intro i g acc r hd hacc hg hchars
    simp only [genLoop]
    rcases htp : tryPlaceGen size (upperStr w) 100 g r with ⟨res, g1, r1⟩
    rcases tryPlaceGen_spec htp with ⟨hres, hgeq⟩ | ⟨ps, d, sr, sc, hres, hcc, hgeq⟩
    · subst hres
      subst hgeq
      obtain ⟨ihd, ihe, ihg, ihp, newE, hsplit, hsub, hlens⟩ :=
        ih (i + 1) g1 acc r1 hd hacc hg
          (fun x hx => hchars x (List.mem_cons_of_mem _ hx))
      refine ⟨ihd, ihe, ihg, ihp, newE, hsplit, ?_, hlens⟩
      rw [List.map_cons]
      exact hsub.trans (List.sublist_cons_self _ _)
    · subst hres
      subst hgeq
      have hlen : ps.length = (upperStr w).length := checkCells_length hcc
      have hnd : ps.Nodup := checkCells_nodup hcc
      obtain ⟨-, hbnd, hzip⟩ := checkCells_spec hcc
      have hext1 : GridExtends g (placeLetters g ps (upperStr w)) :=
        writeCells_extends hd hlen hnd hbnd hzip
      have hd1 : gridDims size (placeLetters g ps (upperStr w)) :=
        dims_writeCells hd
      have hg1 : gridOk P (placeLetters g ps (upperStr w)) := by
        refine gridOk_writeCells hg ?_
        intro pc hpc
        exact hchars w (List.mem_cons_self ..) _ (List.of_mem_zip hpc).2
      have hrb : ps.map (readCellTot (placeLetters g ps (upperStr w))) =
          (upperStr w).map some :=
        writeCells_readback hd hlen hnd hbnd
      set e0 : PlacedWord :=
        ⟨upperStr w, ps, COLORS.getD (i % COLORS.length) ""⟩ with he0
      have hpe0 : PlacedOk size (placeLetters g ps (upperStr w)) e0 :=
        ⟨hlen.symm ▸ rfl, hnd, hbnd, hrb⟩
      have hacc1 : ∀ e ∈ acc ++ [e0],
          PlacedOk size (placeLetters g ps (upperStr w)) e := by
        intro e he
        rcases List.mem_append.1 he with he | he
        · exact (hacc e he).monoPlaced hext1
        · rw [List.mem_singleton.1 he]
          exact hpe0
      obtain ⟨ihd, ihe, ihg, ihp, newE, hsplit, hsub, hlens⟩ :=
        ih (i + 1) (placeLetters g ps (upperStr w)) (acc ++ [e0]) r1
          hd1 hacc1 hg1 (fun x hx => hchars x (List.mem_cons_of_mem _ hx))
      refine ⟨ihd, hext1.trans ihe, ihg, ihp, e0 :: newE, ?_, ?_, ?_⟩
      · rw [hsplit, List.append_assoc]
        rfl
      · rw [List.map_cons, List.map_cons]
        exact hsub.cons₂ _
      · intro e he
        rcases List.mem_cons.1 he with rfl | he'
        · exact checkCells_word_le hcc
        · exact hlens e he'

theorem cellAt_emptyGrid (size r c : Nat) :
    cellAt (List.replicate size (List.replicate size (none : Cell))) r c =
      none := by
  unfold cellAt
  have hrow : (List.replicate size (List.replicate size (none : Cell))).getD
      r [] = if r < size then List.replicate size none else [] := by
    rcases Nat.lt_or_ge r size with hr | hr
    · rw [if_pos hr, getD_eq_get (by simpa using hr), List.get_replicate]
    · rw [if_neg (by omega), List.getD_eq_default _ _ (by simpa using hr)]
  rw [hrow]
  split
  · rcases Nat.lt_or_ge c size with hc | hc
    · rw [getD_eq_get (by simpa using hc), List.get_replicate]
    · rw [List.getD_eq_default _ _ (by simpa using hc)]
  · rw [List.getD_eq_default _ _ (by simp)]

theorem dims_emptyGrid (size : Nat) :
    gridDims size (List.replicate size (List.replicate size (none : Cell))) := by
  refine ⟨by simp, ?_⟩
  intro row hrow
  rw [List.eq_of_mem_replicate hrow]
  simp

theorem gridOk_emptyGrid (size : Nat) (P : Char → Prop) :
    gridOk P (List.replicate size (List.replicate size (none : Cell))) := by
  intro r c ch hch
  rw [cellAt_emptyGrid] at hch
  cases hch

theorem jsSortLenDesc_sorted (ws : List Str) :
    (jsSortLenDesc ws).Pairwise (fun a b : Str => b.length ≤ a.length) := by
  have ht : IsTotal Str (fun a b : Str => b.length ≤ a.length) :=
    ⟨fun a b => by omega⟩
  have htr : IsTrans Str (fun a b : Str => b.length ≤ a.length) :=
    ⟨fun a b c h1 h2 => by omega⟩
  exact List.sorted_insertionSort _ ws

theorem jsSortLenDesc_mem {ws : List Str} {w : Str} (h : w ∈ ws) :
    w ∈ jsSortLenDesc ws :=
  (List.perm_insertionSort _ ws).symm.subset h

theorem jsSortLenDesc_mem_rev {ws : List Str} {w : Str}
    (h : w ∈ jsSortLenDesc ws) : w ∈ ws :=
  (List.perm_insertionSort _ ws).subset h

/-- Master invariant of `generatePuzzle`: the final grid is a fully filled
`size × size` matrix all of whose letters satisfy `P` (given that the input
words' uppercased letters and the filler alphabet do); every placement record
is well-formed against the final grid and reads back exactly as its word; and
the placed-word texts form a subsequence of the uppercased sorted word list,
each no longer than the grid side. -/
theorem generatePuzzle_inv {P : Char → Prop} (words : List Str) (size : Nat)
    (r : RandSrc) (hchars : ∀ w ∈ words, ∀ c ∈ upperStr w, P c)
    (hletters : ∀ ch ∈ letters, P ch) :
    gridDims size (generatePuzzle words size r).1.grid ∧
    gridFilled size (generatePuzzle words size r).1.grid ∧
    gridOk P (generatePuzzle words size r).1.grid ∧
    (∀ e ∈ (generatePuzzle words size r).1.placedWords,
      PlacedOk size (generatePuzzle words size r).1.grid e) ∧
    ((generatePuzzle words size r).1.placedWords.map PlacedWord.word).Sublist
      ((jsSortLenDesc words).map upperStr) ∧
    (∀ e ∈ (generatePuzzle words size r).1.placedWords,
      e.word.length ≤ size) := by
  obtain ⟨ihd, ihe, ihg, ihp, newE, hsplit, hsub, hlens⟩ :=
    @genLoop_inv size P (jsSortLenDesc words) 0
      (List.replicate size (List.replicate size none)) [] r
      (dims_emptyGrid size) (fun e he => absurd he (List.not_mem_nil e))
      (gridOk_emptyGrid size P)
      (fun w hw => hchars w (jsSortLenDesc_mem_rev hw))
  simp only [generatePuzzle]
  rcases hgl : genLoop size (jsSortLenDesc words) 0
      (List.replicate size (List.replicate size none)) [] r with ⟨g1, placed, r1⟩
  rw [hgl] at ihd ihe ihg ihp hsplit
  simp only at ihd ihe ihg ihp hsplit
  rcases hf : fillRandomLetters size g1 r1 with ⟨g2, r2⟩
  dsimp only
  have hfe : GridExtends g1 g2 := by
    have hx := fill_extends size g1 r1
    rw [hf] at hx
    exact hx
  have hfd : gridDims size g2 := by
    have hx := fill_dims ihd r1
    rw [hf] at hx
    exact hx
  refine ⟨hfd, ?_, ?_, ?_, ?_, ?_⟩
  · have hx := fill_filled ihd r1
    rw [hf] at hx
    exact hx
  · have hx := fill_gridOk size ihg hletters r1
    rw [hf] at hx
    exact hx
  · intro e he
    exact ((ihp e he).monoPlaced hfe)
  · rw [hsplit]
    simpa using hsub
  · intro e he
    rw [hsplit] at he
    exact hlens e (by simpa using he)

theorem tryPlaceGen_nil (size fuel : Nat) (g : Grid) (r : RandSrc) :
    tryPlaceGen size [] (fuel + 1) g r = (some [], g, ⟨r.f, r.i + 3⟩) := by
  simp only [tryPlaceGen]
  generalize dirs8.getD (RandSrc.draw r 8).1.toNat Dir8.h = d
  cases d <;> rfl

theorem genLoop_acc_mono {size : Nat} :
    ∀ (ws : List Str) (i : Nat) (g : Grid) (acc : List PlacedWord)
      (r : RandSrc),
      ∃ newE, (genLoop size ws i g acc r).2.1 = acc ++ newE := by
  intro ws
  induction ws with
  | nil => exact fun i g acc r => ⟨[], by simp [genLoop]⟩
  | cons w rest ih =>
    intro i g acc r
    simp only [genLoop]
    rcases htp : tryPlaceGen size (upperStr w) 100 g r with ⟨res, g1, r1⟩
    rcases res with _ | ps
    · exact ih (i + 1) g1 acc r1
    · obtain ⟨newE, hnew⟩ := ih (i + 1) g1
        (acc ++ [⟨upperStr w, ps, COLORS.getD (i % COLORS.length) ""⟩]) r1
      exact ⟨_ :: newE, by rw [hnew, List.append_assoc]; rfl⟩

theorem genLoop_mem_empty {size : Nat} :
    ∀ (ws : List Str) (i : Nat) (g : Grid) (acc : List PlacedWord)
      (r : RandSrc), [] ∈ ws →
      ∃ e ∈ (genLoop size ws i g acc r).2.1,
        e.word = [] ∧ e.positions = [] := by
  intro ws
  induction ws with
  | nil => intro i g acc r hmem; cases hmem
  | cons w rest ih =>
    intro i g acc r hmem
    simp only [genLoop]
    rcases List.mem_cons.1 hmem with rfl | hmem'
    · rw [show upperStr ([] : Str) = [] from rfl,
        show (100 : Nat) = 99 + 1 from rfl, tryPlaceGen_nil]
      obtain ⟨newE, hnew⟩ := genLoop_acc_mono rest (i + 1) g
        (acc ++ [⟨[], [], COLORS.getD (i % COLORS.length) ""⟩])
        ⟨r.f, r.i + 3⟩
      refine ⟨⟨[], [], COLORS.getD (i % COLORS.length) ""⟩, ?_, rfl, rfl⟩
      rw [hnew]
      exact List.mem_append.2 (Or.inl (List.mem_append.2 (Or.inr (by simp))))
    · rcases htp : tryPlaceGen size (upperStr w) 100 g r with ⟨res, g1, r1⟩
      rcases res with _ | ps
      · exact ih (i + 1) g1 acc r1 hmem'
      · exact ih (i + 1) g1 _ r1 hmem'

/-! ## The placement walk of `WordSearchGame` -/

theorem getNextPosition_inj (sr sc : Int) (d : Dir4) {i i' : Nat}
    (hne : i ≠ i') : getNextPosition sr sc d i ≠ getNextPosition sr sc d i' := by
  cases d <;>
    (unfold getNextPosition
     intro he
     obtain ⟨e1, e2⟩ := Prod.mk.injEq .. ▸ he
     omega)

theorem getNextPosition_len_le {size : Nat} (sr sc : Int) (d : Dir4)
    {len : Nat} (hpos : 0 < len)
    (h0 : inBounds size (getNextPosition sr sc d 0))
    (h1 : inBounds size (getNextPosition sr sc d (len - 1))) : len ≤ size := by
  cases d <;>
    (unfold getNextPosition at h0 h1
     obtain ⟨a0, a1, a2, a3⟩ := h0
     obtain ⟨b0, b1, b2, b3⟩ := h1
     simp only at a0 a1 a2 a3 b0 b1 b2 b3
     omega)

theorem readCellTot_of_jsIndex {g : Grid} {p : Int × Int}
    {rowArr : List Cell} {cl : Cell} (h1 : jsIndex g p.1 = some rowArr)
    (h2 : jsIndex rowArr p.2 = some cl) : readCellTot g p = cl := by
  obtain ⟨hp1, hg1⟩ := jsIndex_eq_some.1 h1
  obtain ⟨hp2, hg2⟩ := jsIndex_eq_some.1 h2
  rw [readCellTot_nonneg hp1 hp2, cellAt_eq, hg1]
  simp only [Option.getD_some]
  rw [hg2]
  rfl

theorem range_map_succ_shift (f : Nat → α) (n i : Nat) :
    (List.range (n + 1)).map (fun k => f (i + k)) =
    f i :: (List.range n).map (fun k => f ((i + 1) + k)) := by
  rw [List.range_succ_eq_map, List.map_cons, Nat.add_zero, List.map_map]
  refine congrArg _ (List.map_congr_left ?_)
  intro k _
  exact congrArg f (by omega)

theorem canPlaceWord_spec {size : Nat} {g : Grid} (hd : gridDims size g)
    {w : Str} {row col : Int} {d : Dir4} :
    ∀ {t : Str} {i : Nat}, canPlaceWord g w row col d i t = .ok true →
      (∀ p ∈ (List.range t.length).map
          (fun k => getNextPosition row col d (i + k)), inBounds size p) ∧
      (∀ pc ∈ ((List.range t.length).map
          (fun k => getNextPosition row col d (i + k))).zip t,
        readCellTot g pc.1 = none ∨ readCellTot g pc.1 = some pc.2) := by
  intro t
  induction t with
  | nil =>
    intro i _
    exact ⟨fun p hp => absurd hp (by simp), fun pc hpc => absurd hpc (by simp)⟩
  | cons ch rest ih =>
    intro i h
    simp only [canPlaceWord] at h
    rcases e1 : jsIndex g (getNextPosition row col d i).1 with _ | rowArr
    · rw [e1] at h
      cases h
    · rw [e1] at h
      dsimp only at h
      rcases e2 : jsIndex rowArr (getNextPosition row col d i).2 with _ | cl
      · rw [e2] at h
        cases h
      · rw [e2] at h
        obtain ⟨hp1, hg1⟩ := jsIndex_eq_some.1 e1
        obtain ⟨hp2, hg2⟩ := jsIndex_eq_some.1 e2
        obtain ⟨hlt1, hget1⟩ := List.get?_eq_some.1 hg1
        obtain ⟨hlt2, hget2⟩ := List.get?_eq_some.1 hg2
        have hrowmem : rowArr ∈ g := by
          rw [← hget1]
          exact List.get_mem ..
        have hrlen : rowArr.length = size := hd.2 _ hrowmem
        have hglen : g.length = size := hd.1
        have hbnd : inBounds size (getNextPosition row col d i) :=
          ⟨hp1, by omega, hp2, by omega⟩
        have hread : readCellTot g (getNextPosition row col d i) = cl :=
          readCellTot_of_jsIndex e1 e2
        have main : canPlaceWord g w row col d (i + 1) rest = .ok true →
            (readCellTot g (getNextPosition row col d i) = none ∨
             readCellTot g (getNextPosition row col d i) = some ch) →
            (∀ p ∈ (List.range (ch :: rest).length).map
                (fun k => getNextPosition row col d (i + k)),
              inBounds size p) ∧
            (∀ pc ∈ ((List.range (ch :: rest).length).map
                (fun k => getNextPosition row col d (i + k))).zip (ch :: rest),
              readCellTot g pc.1 = none ∨ readCellTot g pc.1 = some pc.2) := by
          intro hrec hcell
          obtain ⟨ihb, ihz⟩ := ih hrec
          rw [List.length_cons,
            range_map_succ_shift (getNextPosition row col d) rest.length i]
          constructor
          · intro p hp
            rcases List.mem_cons.1 hp with rfl | hp'
            · exact hbnd
            · exact ihb p hp'
          · intro pc hpc
            rw [List.zip_cons_cons] at hpc
            rcases List.mem_cons.1 hpc with rfl | hpc'
            · exact hcell
            · exact ihz pc hpc'
        rcases cl with _ | ex
        · dsimp only at h
          exact main h (Or.inl hread)
        · dsimp only at h
          split at h
          · rename_i hex
            subst hex
            exact main h (Or.inr hread)
          · cases h

theorem insertWord_eq {g : Grid} {w : Str} {row col : Int} {d : Dir4} :
    ∀ (t : Str) (i : Nat),
      insertWord g w row col d i t =
        ((List.range t.length).map (fun k => getNextPosition row col d (i + k)),
         writeCells g (((List.range t.length).map
           (fun k => getNextPosition row col d (i + k))).zip t)) := by
  intro t
  induction t generalizing g with
  | nil => intro i; rfl
  | cons ch rest ih =>
    intro i
    simp only [insertWord]
    rw [@ih (setCell g (getNextPosition row col d i).1.toNat
      (getNextPosition row col d i).2.toNat ch) (i + 1)]
    rw [List.length_cons,
      range_map_succ_shift (getNextPosition row col d) rest.length i]
    rfl

theorem attemptLoop_spec {size : Nat} {w : Str} :
    ∀ {fuel : Nat} {g : Grid} {r : RandSrc}
      {res : Option (List (Int × Int) × Int × Int × Dir4)} {g' : Grid}
      {r' : RandSrc},
      attemptLoop size w fuel g r = .ok (res, g', r') →
      (res = none ∧ g' = g) ∨
      (∃ ps row col d, res = some (ps, row, col, d) ∧
        canPlaceWord g w row col d 0 w = .ok true ∧
        insertWord g w row col d 0 w = (ps, g')) := by
  intro fuel
  induction fuel with
  | zero =>
    intro g r res g' r' h
    simp only [attemptLoop, Except.ok.injEq, Prod.mk.injEq] at h
    exact Or.inl ⟨h.1.symm, h.2.1.symm⟩
  | succ fuel ih =>
    intro g r res g' r' h
    simp only [attemptLoop] at h
    rcases hdir : getRandomDirection r with ⟨d, r1⟩
    rw [hdir] at h
    dsimp only at h
    rcases hpos : getRandomPosition size d w.length r1 with ⟨row, col, r2⟩
    rw [hpos] at h
    dsimp only at h
    rcases hcp : canPlaceWord g w row col d 0 w with e | b
    · rw [hcp] at h
      cases h
    · rw [hcp] at h
      cases b
      · dsimp only at h
        exact ih h
      · dsimp only at h
        rcases hins : insertWord g w row col d 0 w with ⟨ps, g2⟩
        rw [hins] at h
        dsimp only at h
        simp only [Except.ok.injEq, Prod.mk.injEq] at h
        exact Or.inr ⟨ps, row, col, d, h.1.symm, hcp, by rw [hins, h.2.1]⟩

theorem placeWord_spec {size : Nat} {w : Str} {g : Grid}
    {wps : List WordPosition} {r : RandSrc} {g' : Grid}
    {wps' : List WordPosition} {r' : RandSrc}
    (h : placeWord size w g wps r = .ok (g', wps', r')) :
    (g' = g ∧ wps' = wps) ∨
    (∃ w', (w' = w ∨ w' = w.reverse) ∧
      ∃ ps row col d,
        canPlaceWord g w' row col d 0 w' = .ok true ∧
        insertWord g w' row col d 0 w' = (ps, g') ∧
        wps' = wps ++ [⟨w, row, col, d, ps⟩]) := by
  simp only [placeWord] at h
  rcases hal : attemptLoop size w 100 g r with e | ⟨res, g1, r1⟩
  · rw [hal] at h
    cases h
  · rw [hal] at h
    rcases res with _ | ⟨ps, row, col, d⟩
    · dsimp only at h
      obtain ⟨-, hg1⟩ := (attemptLoop_spec hal).resolve_right
        (by rintro ⟨ps, row, col, d, hcon, -⟩; cases hcon)
      rw [hg1] at h
      rcases hdir : getRandomDirection r1 with ⟨d, r2⟩
      rw [hdir] at h
      dsimp only at h
      rcases hpos : getRandomPosition size d w.reverse.length r2
        with ⟨row, col, r3⟩
      rw [hpos] at h
      dsimp only at h
      rcases hcp : canPlaceWord g w.reverse row col d 0 w.reverse with e | b
      · rw [hcp] at h
        cases h
      · rw [hcp] at h
        cases b
        · dsimp only at h
          simp only [Except.ok.injEq, Prod.mk.injEq] at h
          exact Or.inl ⟨h.1.symm, h.2.1.symm⟩
        · dsimp only at h
          rcases hins : insertWord g w.reverse row col d 0 w.reverse
            with ⟨ps, g2⟩
          rw [hins] at h
          dsimp only at h
          simp only [Except.ok.injEq, Prod.mk.injEq] at h
          exact Or.inr ⟨w.reverse, Or.inr rfl, ps, row, col, d, hcp,
            by rw [hins, h.1], h.2.1.symm⟩
    · dsimp only at h
      simp only [Except.ok.injEq, Prod.mk.injEq] at h
      rcases attemptLoop_spec hal with ⟨hcon, -⟩ |
        ⟨ps2, row2, col2, d2, hres, hcp, hins⟩
      · cases hcon
      · simp only [Option.some.injEq, Prod.mk.injEq] at hres
        obtain ⟨rfl, rfl, rfl, rfl⟩ := hres
        exact Or.inr ⟨w, Or.inl rfl, ps, row, col, d, hcp,
          by rw [hins, h.1], h.2.1.symm⟩

theorem WFwp.monoWf {size : Nat} {g g' : Grid} (hext : GridExtends g g')
    {wp : WordPosition} (h : WFwp size g wp) : WFwp size g' wp := by
  obtain ⟨h1, h2, h3, h4, h5⟩ := h
  refine ⟨h1, h2, h3, ?_, h5⟩
  rcases h4 with h4 | h4
  · exact Or.inl (hext.readMap h4)
  · exact Or.inr (hext.readMap h4)

theorem placeWord_step {size : Nat} {w : Str} {g : Grid}
    {wps : List WordPosition} {r : RandSrc} {g' : Grid}
    {wps' : List WordPosition} {r' : RandSrc} {P : Char → Prop}
    (hd : gridDims size g)
    (h : placeWord size w g wps r = .ok (g', wps', r'))
    (hupper : upperStr w = w) (hg : gridOk P g) (hP : ∀ c ∈ w, P c) :
    gridDims size g' ∧ GridExtends g g' ∧ gridOk P g' ∧
    (wps' = wps ∨ ∃ wp, wps' = wps ++ [wp] ∧ wp.word = w ∧
      WFwp size g' wp ∧ wp.word.length ≤ size) := by
  rcases placeWord_spec h with ⟨hg', hwps'⟩ | ⟨w', hw', ps, row, col, d, hcp, hins, hwps'⟩
  · subst hg'
    subst hwps'
    exact ⟨hd, GridExtends.rfl _, hg, Or.inl rfl⟩
  · have hlen' : w'.length = w.length := by
      rcases hw' with rfl | rfl
      · rfl
      · exact List.length_reverse w
    have hPw' : ∀ c ∈ w', P c := by
      rcases hw' with rfl | rfl
      · exact hP
      · intro c hc
        exact hP c (List.mem_reverse.1 hc)
    obtain ⟨hbnd, hzip⟩ := canPlaceWord_spec hd hcp
    rw [insertWord_eq w' 0] at hins
    obtain ⟨hps, hgw⟩ := Prod.mk.injEq .. ▸ hins
    rw [hps] at hgw
    have hnodup : ps.Nodup := by
      rw [← hps]
      refine List.Nodup.map_on ?_ (List.nodup_range _)
      intro x _ y _ he
      by_contra hne
      exact getNextPosition_inj row col d (fun e => hne (by omega)) he
    have hpslen : ps.length = w'.length := by
      rw [← hps, List.length_map, List.length_range]
    have hbnd' : ∀ p ∈ ps, inBounds size p := by
      rw [← hps]
      exact hbnd
    have hzip' : ∀ pc ∈ ps.zip w',
        readCellTot g pc.1 = none ∨ readCellTot g pc.1 = some pc.2 := by
      rw [← hps]
      exact hzip
    have hext : GridExtends g g' := by
      rw [← hgw]
      exact writeCells_extends hd hpslen hnodup hbnd' hzip'
    have hd' : gridDims size g' := by
      rw [← hgw]
      exact dims_writeCells hd
    have hgok' : gridOk P g' := by
      rw [← hgw]
      refine gridOk_writeCells hg ?_
      intro pc hpc
      exact hPw' _ (List.of_mem_zip hpc).2
    have hrb : ps.map (readCellTot g') = w'.map some := by
      rw [← hgw]
      exact writeCells_readback hd hpslen hnodup hbnd'
    have hwle : w.length ≤ size := by
      rcases Nat.eq_zero_or_pos w.length with hz | hpos
      · omega
      · have h0 : getNextPosition row col d 0 ∈ ps := by
          rw [← hps]
          exact List.mem_map.2 ⟨0, List.mem_range.2 (by omega), by rw [Nat.add_zero]⟩
        have h1 : getNextPosition row col d (w'.length - 1) ∈ ps := by
          rw [← hps]
          exact List.mem_map.2 ⟨w'.length - 1, List.mem_range.2 (by omega),
            by rw [Nat.zero_add]⟩
        have := @getNextPosition_len_le size row col d w'.length
          (by omega) (hbnd' _ h0) (hbnd' _ h1)
        omega
    refine ⟨hd', hext, hgok', Or.inr ⟨⟨w, row, col, d, ps⟩, hwps', rfl, ?_, hwle⟩⟩
    refine ⟨by rw [hpslen, hlen'], hnodup, hbnd', ?_, hupper⟩
    rcases hw' with rfl | rfl
    · exact Or.inl hrb
    · exact Or.inr hrb

theorem placeAllWords_acc_mono {size : Nat} :
    ∀ (ws : List Str) (g : Grid) (wps : List WordPosition) (r : RandSrc)
      {g' : Grid} {wps' : List WordPosition} {r' : RandSrc},
      placeAllWords size ws g wps r = .ok (g', wps', r') →
      ∃ newW, wps' = wps ++ newW := by
  intro ws
  induction ws with
  | nil =>
    intro g wps r g' wps' r' h
    simp only [placeAllWords, Except.ok.injEq, Prod.mk.injEq] at h
    exact ⟨[], by rw [← h.2.1, List.append_nil]⟩
  | cons w rest ih =>
    intro g wps r g' wps' r' h
    simp only [placeAllWords] at h
    rcases hpw : placeWord size w g wps r with e | ⟨g1, wps1, r1⟩
    · rw [hpw] at h
      cases h
    · rw [hpw] at h
      dsimp only at h
      obtain ⟨newW, hnew⟩ := ih g1 wps1 r1 h
      rcases placeWord_spec hpw with ⟨-, hwps1⟩ | ⟨w', -, ps, row, col, d, -, -, hwps1⟩
      · exact ⟨newW, by rw [hnew, hwps1]⟩
      · exact ⟨⟨w, row, col, d, ps⟩ :: newW,
          by rw [hnew, hwps1, List.append_assoc]; rfl⟩

theorem placeAllWords_inv {size : Nat} {P : Char → Prop} :
    ∀ (ws : List Str) (g : Grid) (wps : List WordPosition) (r : RandSrc)
      {g' : Grid} {wps' : List WordPosition} {r' : RandSrc},
      placeAllWords size ws g wps r = .ok (g', wps', r') →
      gridDims size g →
      (∀ wp ∈ wps, WFwp size g wp ∧ wp.word.length ≤ size) →
      gridOk P g →
      (∀ w ∈ ws, upperStr w = w ∧ ∀ c ∈ w, P c) →
      gridDims size g' ∧ GridExtends g g' ∧ gridOk P g' ∧
      (∀ wp ∈ wps', WFwp size g' wp ∧ wp.word.length ≤ size) := by
  intro ws
  induction ws with
  | nil =>
    intro g wps r g' wps' r' h hd hwps hg _
    simp only [placeAllWords, Except.ok.injEq, Prod.mk.injEq] at h
    obtain ⟨hg', hwps', -⟩ := h
    subst hg'
    subst hwps'
    exact ⟨hd, GridExtends.rfl _, hg, hwps⟩
  | cons w rest ih =>
    intro g wps r g' wps' r' h hd hwps hg hws
    simp only [placeAllWords] at h
    rcases hpw : placeWord size w g wps r with e | ⟨g1, wps1, r1⟩
    · rw [hpw] at h
      cases h
    · rw [hpw] at h
      dsimp only at h
      obtain ⟨hd1, hext1, hgok1, hstep⟩ :=
        placeWord_step hd hpw (hws w (List.mem_cons_self ..)).1 hg
          (hws w (List.mem_cons_self ..)).2
      have hwps1 : ∀ wp ∈ wps1, WFwp size g1 wp ∧ wp.word.length ≤ size := by
        rcases hstep with rfl | ⟨wp0, rfl, hword, hwf, hle⟩
        · exact fun wp hwp => ⟨((hwps wp hwp).1).monoWf hext1, (hwps wp hwp).2⟩
        · intro wp hwp
          rcases List.mem_append.1 hwp with hwp | hwp
          · exact ⟨((hwps wp hwp).1).monoWf hext1, (hwps wp hwp).2⟩
          · rw [List.mem_singleton.1 hwp]
            exact ⟨hwf, hle⟩
      obtain ⟨ihd, ihe, ihg, ihp⟩ := ih g1 wps1 r1 h hd1 hwps1 hgok1
        (fun x hx => hws x (List.mem_cons_of_mem _ hx))
      exact ⟨ihd, hext1.trans ihe, ihg, ihp⟩

/-- Master invariant of the `WordSearchGame` constructor: whenever
construction completes without throwing, the stored word list is the
uppercased input, the found set starts empty, the grid is a fully filled
`size × size` matrix whose letters satisfy `P`, and every placement record is
well-formed against the final grid with a word no longer than the side. -/
theorem WordSearchGame.new_spec (P : Char → Prop) {words : List Str}
    {size : Nat} {r : RandSrc} {s : GameState} {r' : RandSrc}
    (h : WordSearchGame.new words size r = .ok (s, r'))
    (hchars : ∀ w ∈ words, ∀ c ∈ upperStr w, P c)
    (hletters : ∀ ch ∈ letters, P ch) :
    s.size = size ∧ s.words = words.map upperStr ∧ s.foundWords = [] ∧
    gridDims size s.grid ∧ gridFilled size s.grid ∧ gridOk P s.grid ∧
    (∀ wp ∈ s.wordPositions, WFwp size s.grid wp ∧ wp.word.length ≤ size) := by
  simp only [WordSearchGame.new] at h
  rcases hpa : placeAllWords size (words.map upperStr)
      (List.replicate size (List.replicate size none)) [] r
    with e | ⟨g1, wps1, r1⟩
  · rw [hpa] at h
    cases h
  · rw [hpa] at h
    dsimp only at h
    rcases hf : fillRandomLetters size g1 r1 with ⟨g2, r2⟩
    rw [hf] at h
    dsimp only at h
    simp only [Except.ok.injEq, Prod.mk.injEq] at h
    obtain ⟨hs, -⟩ := h
    have hws : ∀ w ∈ words.map upperStr, upperStr w = w ∧ ∀ c ∈ w, P c := by
      intro w hw
      obtain ⟨w0, hw0, rfl⟩ := List.mem_map.1 hw
      exact ⟨upperStr_idem w0, fun c hc => hchars w0 hw0 c hc⟩
    obtain ⟨hd1, -, hgok1, hwf1⟩ :=
      placeAllWords_inv (words.map upperStr)
        (List.replicate size (List.replicate size none)) [] r hpa
        (dims_emptyGrid size) (fun wp hwp => absurd hwp (List.not_mem_nil wp))
        (gridOk_emptyGrid size P) hws
    have hfe : GridExtends g1 g2 := by
      have hx := fill_extends size g1 r1
      rw [hf] at hx
      exact hx
    subst hs
    refine ⟨rfl, rfl, rfl, ?_, ?_, ?_, ?_⟩
    · have hx := fill_dims hd1 r1
      rw [hf] at hx
      exact hx
    · have hx := fill_filled hd1 r1
      rw [hf] at hx
      exact hx
    · have hx := fill_gridOk size hgok1 hletters r1
      rw [hf] at hx
      exact hx
    · intro wp hwp
      exact ⟨((hwf1 wp hwp).1).monoWf hfe, (hwf1 wp hwp).2⟩

theorem attemptLoop_nil (size fuel : Nat) (g : Grid) (r : RandSrc) :
    ∃ row col d, attemptLoop size [] (fuel + 1) g r =
      .ok (some ([], row, col, d), g, ⟨r.f, r.i + 3⟩) := by
  simp only [attemptLoop, getRandomDirection]
  generalize dirs4.getD (RandSrc.draw r 4).1.toNat Dir4.h = d
  cases d <;> exact ⟨_, _, _, rfl⟩

theorem placeWord_nil (size : Nat) (g : Grid) (wps : List WordPosition)
    (r : RandSrc) :
    ∃ row col d, placeWord size [] g wps r =
      .ok (g, wps ++ [⟨[], row, col, d, []⟩], ⟨r.f, r.i + 3⟩) := by
  obtain ⟨row, col, d, hal⟩ := attemptLoop_nil size 99 g r
  refine ⟨row, col, d, ?_⟩
  simp only [placeWord]
  rw [show (100 : Nat) = 99 + 1 from rfl, hal]

theorem placeAllWords_mem_empty {size : Nat} :
    ∀ (ws : List Str) (g : Grid) (wps : List WordPosition) (r : RandSrc)
      {g' : Grid} {wps' : List WordPosition} {r' : RandSrc},
      placeAllWords size ws g wps r = .ok (g', wps', r') →
      [] ∈ ws →
      ∃ wp ∈ wps', wp.word = [] ∧ wp.positions = [] := by
  intro ws
  induction ws with
  | nil =>
    intro g wps r g' wps' r' h hmem
    cases hmem
  | cons w rest ih =>
    intro g wps r g' wps' r' h hmem
    simp only [placeAllWords] at h
    rcases hpw : placeWord size w g wps r with e | ⟨g1, wps1, r1⟩
    · rw [hpw] at h
      cases h
    · rw [hpw] at h
      dsimp only at h
      rcases List.mem_cons.1 hmem with rfl | hmem'
      · obtain ⟨row, col, d, hnil⟩ := placeWord_nil size g wps r
        rw [hpw] at hnil
        simp only [Except.ok.injEq, Prod.mk.injEq] at hnil
        obtain ⟨-, hwps1, -⟩ := hnil
        obtain ⟨newW, hnew⟩ := placeAllWords_acc_mono rest g1 wps1 r1 h
        refine ⟨⟨[], row, col, d, []⟩, ?_, rfl, rfl⟩
        rw [hnew, hwps1]
        exact List.mem_append.2 (Or.inl (List.mem_append.2 (Or.inr (by simp))))
      · exact ih g1 wps1 r1 h hmem'

/-! ## The selection matcher -/

theorem nodup_subset_len_eq {α : Type} [DecidableEq α] {l1 l2 : List α}
    (h1 : l1.Nodup) (h2 : l2.Nodup) (hsub : ∀ x ∈ l1, x ∈ l2)
    (hlen : l2.length ≤ l1.length) : ∀ x ∈ l2, x ∈ l1 := by
  have hfs : l1.toFinset ⊆ l2.toFinset := by
    intro x hx
    exact List.mem_toFinset.2 (hsub x (List.mem_toFinset.1 hx))
  have hcard : l2.toFinset.card ≤ l1.toFinset.card := by
    rw [List.toFinset_card_of_nodup h1, List.toFinset_card_of_nodup h2]
    exact hlen
  have heq := Finset.eq_of_subset_of_card_le hfs hcard
  intro x hx
  exact List.mem_toFinset.1 (heq ▸ List.mem_toFinset.2 hx)

theorem readCellJs_ok {g : Grid} {p : Int × Int} (h1 : 0 ≤ p.1)
    (h2 : p.1 < (g.length : Int)) :
    readCellJs g p = .ok (readCellTot g p).toList := by
  have hlt : p.1.toNat < g.length := by omega
  obtain ⟨rowArr, hget⟩ : ∃ rowArr, g.get? p.1.toNat = some rowArr := by
    rcases e : g.get? p.1.toNat with _ | rowArr
    · rw [List.get?_eq_none] at e
      omega
    · exact ⟨rowArr, rfl⟩
  have he1 : jsIndex g p.1 = some rowArr := by
    rw [jsIndex_eq, if_pos h1, hget]
  unfold readCellJs
  rw [he1]
  dsimp only
  by_cases hc : 0 ≤ p.2
  · have he2 : jsIndex rowArr p.2 = rowArr.get? p.2.toNat := by
      rw [jsIndex_eq, if_pos hc]
    have hcell : readCellTot g p = (rowArr.get? p.2.toNat).getD none := by
      rw [readCellTot_nonneg h1 hc, cellAt_eq, hget]
      rfl
    rcases e2 : rowArr.get? p.2.toNat with _ | cl
    · rw [he2, e2, hcell, e2]
      rfl
    · rw [he2, e2, hcell, e2]
      rcases cl with _ | ch <;> rfl
  · unfold readCellTot
    rw [if_pos (Or.inr (by omega))]
    have he2 : jsIndex rowArr p.2 = none := by
      rw [jsIndex_eq, if_neg hc]
    rw [he2]
    rfl

theorem readCellsJs_ok {g : Grid} :
    ∀ {ps : List (Int × Int)},
      (∀ p ∈ ps, 0 ≤ p.1 ∧ p.1 < (g.length : Int)) →
      readCellsJs g ps = .ok (readLetters g ps) := by
  intro ps
  induction ps with
  | nil => intro _; rfl
  | cons p rest ih =>
    intro hps
    have hp := hps p (List.mem_cons_self ..)
    simp only [readCellsJs]
    rw [readCellJs_ok hp.1 hp.2, ih (fun x hx => hps x (List.mem_cons_of_mem _ hx))]
    rfl

theorem readLetters_length {g : Grid} :
    ∀ {ps : List (Int × Int)},
      (∀ p ∈ ps, (readCellTot g p).isSome) →
      (readLetters g ps).length = ps.length := by
  intro ps
  induction ps with
  | nil => intro _; rfl
  | cons p rest ih =>
    intro hps
    have hp := hps p (List.mem_cons_self ..)
    unfold readLetters
    rw [List.foldr_cons]
    rcases e : readCellTot g p with _ | ch
    · rw [e] at hp
      exact absurd hp (by simp)
    · have : (readLetters g rest).length = rest.length :=
        ih (fun x hx => hps x (List.mem_cons_of_mem _ hx))
      unfold readLetters at this
      simp only [e, Option.toList_some, List.singleton_append,
        List.length_cons, this, List.length_cons]

theorem map_some_isSome {g : Grid} {ps : List (Int × Int)} {w : Str}
    (heq : ps.map (readCellTot g) = w.map some) :
    ∀ p ∈ ps, (readCellTot g p).isSome := by
  intro p hp
  have hmem : readCellTot g p ∈ ps.map (readCellTot g) :=
    List.mem_map_of_mem _ hp
  rw [heq] at hmem
  obtain ⟨ch, -, he⟩ := List.mem_map.1 hmem
  rw [← he]
  rfl

theorem claimMatch_iff {s : GameState} {sel : List (Int × Int)}
    {wp : WordPosition} :
    claimMatch s sel wp = true ↔
      wp.word ∉ s.foundWords ∧
      sel.dedup.length = wp.positions.dedup.length ∧
      (∀ p ∈ wp.positions.dedup, p ∈ sel.dedup) ∧
      (∀ p ∈ sel.dedup, p ∈ wp.positions.dedup) ∧
      (readLetters s.grid sel = readLetters s.grid wp.positions ∨
       readLetters s.grid sel = (readLetters s.grid wp.positions).reverse ∨
       readLetters s.grid sel = wp.word) := by
  unfold claimMatch
  simp only [Bool.and_eq_true, decide_eq_true_eq, and_assoc]

theorem scanPositions_spec {s : GameState} {sel selSet : List (Int × Int)} :
    ∀ {wps : List WordPosition} {o : Option Str} {s' : GameState},
      scanPositions s sel selSet wps = .ok (o, s') →
      (o = none ∧ s' = s) ∨
      (∃ wp ∈ wps, o = some wp.word ∧ s' = markWordAsFound s wp.word) := by
  intro wps
  induction wps with
  | nil =>
    intro o s' h
    simp only [scanPositions, Except.ok.injEq, Prod.mk.injEq] at h
    exact Or.inl ⟨h.1.symm, h.2.symm⟩
  | cons wp rest ih =>
    intro o s' h
    have lift : scanPositions s sel selSet rest = .ok (o, s') →
        (o = none ∧ s' = s) ∨
        (∃ wp' ∈ wp :: rest, o = some wp'.word ∧
          s' = markWordAsFound s wp'.word) := by
      intro hh
      rcases ih hh with hl | ⟨wp', hmem, ho, hs⟩
      · exact Or.inl hl
      · exact Or.inr ⟨wp', List.mem_cons_of_mem _ hmem, ho, hs⟩
    simp only [scanPositions] at h
    split at h
    · exact lift h
    · split at h
      · exact lift h
      · split at h
        · exact lift h
        · rcases e1 : readCellsJs s.grid wp.positions with err | wl
          · rw [e1] at h
            cases h
          · rw [e1] at h
            dsimp only at h
            rcases e2 : readCellsJs s.grid sel with err | sw
            · rw [e2] at h
              cases h
            · rw [e2] at h
              dsimp only at h
              split at h
              · simp only [Except.ok.injEq, Prod.mk.injEq] at h
                exact Or.inr ⟨wp, List.mem_cons_self .., h.1.symm, h.2.symm⟩
              · exact lift h

theorem letterCond_iff {sw wl W : Str} (hwl : wl = W ∨ wl = W.reverse) :
    (sw = wl ∨ sw = wl.reverse ∨ sw.reverse = wl ∨ sw.reverse = wl.reverse ∨
     sw = W ∨ sw.reverse = W) ↔
    (sw = wl ∨ sw = wl.reverse ∨ sw = W) := by
  constructor
  · rintro (h | h | h | h | h | h)
    · exact Or.inl h
    · exact Or.inr (Or.inl h)
    · exact Or.inr (Or.inl (List.reverse_eq_iff.1 h))
    · exact Or.inl (List.reverse_injective h)
    · exact Or.inr (Or.inr h)
    · have hsw : sw = W.reverse := List.reverse_eq_iff.1 h
      rcases hwl with rfl | hwl2
      · exact Or.inr (Or.inl hsw)
      · exact Or.inl (hsw.trans hwl2.symm)
  · rintro (h | h | h)
    · exact Or.inl h
    · exact Or.inr (Or.inl h)
    · exact Or.inr (Or.inr (Or.inr (Or.inr (Or.inl h))))

theorem scanPositions_claim {s : GameState} {sel : List (Int × Int)}
    (hd : gridDims s.size s.grid) :
    ∀ {wps : List WordPosition},
      (∀ wp ∈ wps, WFwp s.size s.grid wp) →
      scanPositions s sel sel.dedup wps =
        .ok (match wps.find? (claimMatch s sel) with
             | none => (none, s)
             | some wp =>
               (some wp.word,
                { s with foundWords := s.foundWords ++ [wp.word] })) := by
  intro wps
  induction wps with
  | nil => intro _; rfl
  | cons wp rest ih =>
    intro hwf
    obtain ⟨hlen, hnd, hbnd, hrb, hup⟩ := hwf wp (List.mem_cons_self ..)
    have ihr := ih (fun x hx => hwf x (List.mem_cons_of_mem _ hx))
    simp only [scanPositions]
    by_cases hfound : wp.word ∈ s.foundWords
    · have hif : isWordFound s wp.word = true := by
        unfold isWordFound
        rw [hup]
        exact decide_eq_true hfound
      have hcm : ¬ claimMatch s sel wp = true := by
        intro hc
        exact (claimMatch_iff.1 hc).1 hfound
      rw [if_pos hif, ihr, List.find?_cons_of_neg _ (by simpa using hcm)]
    · have hif : ¬ isWordFound s wp.word = true := by
        unfold isWordFound
        rw [hup]
        simpa using hfound
      by_cases hsz : wp.positions.dedup.length ≠ sel.dedup.length
      · have hcm : ¬ claimMatch s sel wp = true := by
          intro hc
          exact hsz ((claimMatch_iff.1 hc).2.1).symm
        rw [if_neg hif, if_pos hsz, ihr,
          List.find?_cons_of_neg _ (by simpa using hcm)]
      · have hszeq : wp.positions.dedup.length = sel.dedup.length :=
          not_not.1 hsz
        by_cases hsub : ∀ p ∈ wp.positions.dedup, p ∈ sel.dedup
        · have hall : ¬ ¬ (wp.positions.dedup.all (· ∈ sel.dedup)) = true := by
            rw [not_not, List.all_eq_true]
            intro p hp
            exact decide_eq_true (hsub p hp)
          have hsub2 : ∀ p ∈ sel.dedup, p ∈ wp.positions.dedup :=
            nodup_subset_len_eq (List.nodup_dedup _) (List.nodup_dedup _)
              hsub (by omega)
          have hcast : (s.grid.length : Int) = (s.size : Int) :=
            congrArg Nat.cast hd.1
          have hrows1 : ∀ p ∈ wp.positions,
              0 ≤ p.1 ∧ p.1 < (s.grid.length : Int) := by
            intro p hp
            obtain ⟨b1, b2, -, -⟩ := hbnd p hp
            exact ⟨b1, by rw [hcast]; exact b2⟩
          have hrows2 : ∀ p ∈ sel, 0 ≤ p.1 ∧ p.1 < (s.grid.length : Int) := by
            intro p hp
            exact hrows1 p (List.mem_dedup.1 (hsub2 p (List.mem_dedup.2 hp)))
          have he1 := readCellsJs_ok hrows1
          have he2 := readCellsJs_ok hrows2
          have hwl : readLetters s.grid wp.positions = wp.word ∨
              readLetters s.grid wp.positions = wp.word.reverse := by
            rcases hrb with hrb | hrb
            · exact Or.inl (readLetters_of_map_some hrb)
            · exact Or.inr (readLetters_of_map_some hrb)
          rw [if_neg hif, if_neg hsz, if_neg hall, he1]
          dsimp only
          rw [he2]
          dsimp only
          by_cases hletters :
              readLetters s.grid sel = readLetters s.grid wp.positions ∨
              readLetters s.grid sel =
                (readLetters s.grid wp.positions).reverse ∨
              (readLetters s.grid sel).reverse =
                readLetters s.grid wp.positions ∨
              (readLetters s.grid sel).reverse =
                (readLetters s.grid wp.positions).reverse ∨
              readLetters s.grid sel = wp.word ∨
              (readLetters s.grid sel).reverse = wp.word
          · have hcm : claimMatch s sel wp = true :=
              claimMatch_iff.2 ⟨hfound, hszeq.symm, hsub, hsub2,
                (letterCond_iff hwl).1 hletters⟩
            have hmark : markWordAsFound s wp.word =
                { s with foundWords := s.foundWords ++ [wp.word] } := by
              unfold markWordAsFound
              rw [hup, if_neg hfound]
            rw [if_pos hletters, List.find?_cons_of_pos _ hcm, hmark]
          · have hcm : ¬ claimMatch s sel wp = true := by
              intro hc
              exact hletters ((letterCond_iff hwl).2 (claimMatch_iff.1 hc).2.2.2.2)
            rw [if_neg hletters, ihr,
              List.find?_cons_of_neg _ (by simpa using hcm)]
        · have hall : ¬ (wp.positions.dedup.all (· ∈ sel.dedup)) = true := by
            rw [List.all_eq_true]
            intro hc
            exact hsub (fun p hp => of_decide_eq_true (hc p hp))
          have hcm : ¬ claimMatch s sel wp = true := by
            intro hc
            exact hsub (claimMatch_iff.1 hc).2.2.1
          rw [if_neg hif, if_neg hsz, if_pos hall, ihr,
            List.find?_cons_of_neg _ (by simpa using hcm)]

theorem checkSelection_claim {s : GameState} (hd : gridDims s.size s.grid)
    (hwf : ∀ wp ∈ s.wordPositions, WFwp s.size s.grid wp)
    {sel : List (Int × Int)} (hsel : 2 ≤ sel.length) :
    checkSelection s sel = .ok (claimResult s sel) := by
  unfold checkSelection claimResult
  rw [if_neg (by omega)]
  exact scanPositions_claim hd hwf

theorem markWordAsFound_frame (s : GameState) (w : Str) :
    (markWordAsFound s w).size = s.size ∧
    (markWordAsFound s w).grid = s.grid ∧
    (markWordAsFound s w).words = s.words ∧
    (markWordAsFound s w).wordPositions = s.wordPositions ∧
    ∃ t, (markWordAsFound s w).foundWords = s.foundWords ++ t := by
  simp only [markWordAsFound]
  split
  · exact ⟨rfl, rfl, rfl, rfl, [], by simp⟩
  · exact ⟨rfl, rfl, rfl, rfl, [upperStr w], rfl⟩

theorem checkSelection_frame {s : GameState} {sel : List (Int × Int)}
    {o : Option Str} {s' : GameState}
    (h : checkSelection s sel = .ok (o, s')) :
    s'.size = s.size ∧ s'.grid = s.grid ∧ s'.words = s.words ∧
    s'.wordPositions = s.wordPositions ∧
    ((o = none ∧ s' = s) ∨
     (∃ wp ∈ s.wordPositions, o = some wp.word ∧
       s' = markWordAsFound s wp.word)) ∧
    ∃ t, s'.foundWords = s.foundWords ++ t := by
  unfold checkSelection at h
  split at h
  · simp only [Except.ok.injEq, Prod.mk.injEq] at h
    obtain ⟨ho, hs⟩ := h
    subst hs
    exact ⟨rfl, rfl, rfl, rfl, Or.inl ⟨ho.symm, rfl⟩, [], by simp⟩
  · rcases scanPositions_spec h with ⟨ho, hs⟩ | ⟨wp, hmem, ho, hs⟩
    · subst hs
      exact ⟨rfl, rfl, rfl, rfl, Or.inl ⟨ho, rfl⟩, [], by simp⟩
    · subst hs
      obtain ⟨f1, f2, f3, f4, t, f5⟩ := markWordAsFound_frame s wp.word
      exact ⟨f1, f2, f3, f4, Or.inr ⟨wp, hmem, ho, rfl⟩, t, f5⟩

/-- Every reachable session state is well-formed: correct grid shape, every
cell filled, well-formed placements no longer than the side, and every found
word the text of some placement. -/
theorem reachable_wf {s : GameState} (h : Reachable s) :
    gridDims s.size s.grid ∧
    (∀ wp ∈ s.wordPositions,
      WFwp s.size s.grid wp ∧ wp.word.length ≤ s.size) ∧
    gridFilled s.size s.grid ∧
    (∀ w ∈ s.foundWords, ∃ wp ∈ s.wordPositions, wp.word = w) := by
  induction h with
  | init words size r r' s hnew =>
    obtain ⟨hsz, hws, hfw, hdim, hfill, -, hwf⟩ :=
      WordSearchGame.new_spec (fun _ => True) hnew
        (fun _ _ _ _ => trivial) (fun _ _ => trivial)
    subst hsz
    refine ⟨hdim, hwf, hfill, ?_⟩
    rw [hfw]
    intro w hw
    cases hw
  | step s sel o s' hr hc ih =>
    obtain ⟨hd, hwf, hfill, hfound⟩ := ih
    obtain ⟨f1, f2, f3, f4, hcase, t, f5⟩ := checkSelection_frame hc
    refine ⟨by rw [f1, f2]; exact hd, ?_, by rw [f1, f2]; exact hfill, ?_⟩
    · intro wp hwp
      rw [f4] at hwp
      rw [f1, f2]
      exact hwf wp hwp
    · intro w hw
      rcases hcase with ⟨-, rfl⟩ | ⟨wp, hmem, -, rfl⟩
      · exact hfound w hw
      · obtain ⟨-, -, -, f4', -⟩ := markWordAsFound_frame s wp.word
        rw [f4']
        simp only [markWordAsFound] at hw
        split at hw
        · exact hfound w hw
        · simp only at hw
          rcases List.mem_append.1 hw with hw | hw
          · exact hfound w hw
          · rw [List.mem_singleton.1 hw, (hwf wp hmem).1.2.2.2.2]
            exact ⟨wp, hmem, rfl⟩

theorem readLetters_length_eq {g : Grid} {ps : List (Int × Int)} {w : Str}
    (h : ps.map (readCellTot g) = w.map some ∨
         ps.map (readCellTot g) = w.reverse.map some) :
    (readLetters g ps).length = w.length := by
  rcases h with h | h
  · rw [readLetters_of_map_some h]
  · rw [readLetters_of_map_some h, List.length_reverse]

theorem find_none_of_dup {s : GameState}
    (hwf : ∀ wp ∈ s.wordPositions, WFwp s.size s.grid wp)
    {sel : List (Int × Int)} (hdup : ¬ sel.Nodup) :
    s.wordPositions.find? (claimMatch s sel) = none := by
  refine List.find?_eq_none.2 ?_
  intro wp hwp hcm
  obtain ⟨hlen, hnd, hbnd, hrb, -⟩ := hwf wp hwp
  obtain ⟨-, hsz, -, hsub2, hlet⟩ := claimMatch_iff.1 hcm
  have hddl : sel.dedup.length < sel.length := by
    rcases Nat.lt_or_ge sel.dedup.length sel.length with hlt | hge
    · exact hlt
    · exact absurd (((List.dedup_sublist sel).eq_of_length_le hge) ▸
        List.nodup_dedup sel) hdup
  have hwpd : wp.positions.dedup = wp.positions := List.dedup_eq_self.2 hnd
  have hselSome : ∀ p ∈ sel, (readCellTot s.grid p).isSome := by
    intro p hp
    have hp2 : p ∈ wp.positions := by
      rw [← hwpd]
      exact hsub2 p (List.mem_dedup.2 hp)
    rcases hrb with hrb | hrb
    · exact map_some_isSome hrb p hp2
    · exact map_some_isSome hrb p hp2
  have hsellen : (readLetters s.grid sel).length = sel.length :=
    readLetters_length hselSome
  have hwlen : (readLetters s.grid wp.positions).length = wp.word.length :=
    readLetters_length_eq hrb
  have hbig : wp.word.length < sel.length := by
    rw [← hlen, ← hwpd]
    omega
  rcases hlet with hl | hl | hl
  · have := congrArg List.length hl
    rw [hsellen, hwlen] at this
    omega
  · have := congrArg List.length hl
    rw [hsellen, List.length_reverse, hwlen] at this
    omega
  · have := congrArg List.length hl
    rw [hsellen] at this
    omega

theorem find_none_of_oob {s : GameState}
    (hwf : ∀ wp ∈ s.wordPositions, WFwp s.size s.grid wp)
    {sel : List (Int × Int)} {p0 : Int × Int} (hp0 : p0 ∈ sel)
    (hbad : ¬ inBounds s.size p0) :
    s.wordPositions.find? (claimMatch s sel) = none := by
  refine List.find?_eq_none.2 ?_
  intro wp hwp hcm
  obtain ⟨-, -, hbnd, -, -⟩ := hwf wp hwp
  obtain ⟨-, -, -, hsub2, -⟩ := claimMatch_iff.1 hcm
  exact hbad (hbnd p0 (List.mem_dedup.1 (hsub2 p0 (List.mem_dedup.2 hp0))))

theorem generatePuzzle_placedWords (ws : List Str) (n : Nat) (r : RandSrc) :
    (generatePuzzle ws n r).1.placedWords =
      (genLoop n (jsSortLenDesc ws) 0
        (List.replicate n (List.replicate n none)) [] r).2.1 := by
  simp only [generatePuzzle]

theorem WSnew_wordPositions {ws : List Str} {n : Nat} {r : RandSrc}
    {s : GameState} {r' : RandSrc}
    (h : WordSearchGame.new ws n r = .ok (s, r')) :
    ∃ g1 r1, placeAllWords n (ws.map upperStr)
      (List.replicate n (List.replicate n none)) [] r =
        .ok (g1, s.wordPositions, r1) := by
  simp only [WordSearchGame.new] at h
  rcases hpa : placeAllWords n (ws.map upperStr)
      (List.replicate n (List.replicate n none)) [] r with e | ⟨g1, wps1, r1⟩
  · rw [hpa] at h
    cases h
  · rw [hpa] at h
    dsimp only at h
    rcases hf : fillRandomLetters n g1 r1 with ⟨g2, r2⟩
    rw [hf] at h
    dsimp only at h
    simp only [Except.ok.injEq, Prod.mk.injEq] at h
    exact ⟨g1, r1, by rw [← h.1]⟩

theorem demo_reachable : Reachable demoState :=
  Reachable.init [['A', 'B']] 2 streamZero ⟨fun _ => 0, 5⟩ demoState (by rfl)

/-! ## Claim theorems -/

/-- C1 (counterexample): the claim fails on `WordSearchGame`'s
reversed-placement fallback.  In the run driven by `c1Stream`, the word
`"BA"` exhausts its 100 primary attempts and is placed via the fallback,
which writes the reversed letters `"AB"`; reading the grid at its recorded
cell order yields `"AB"`, not the entry's uppercase text `"BA"`. -/
theorem c1_counterexample :
    gameReadbacks (WordSearchGame.new [['A', 'B'], ['B', 'A']] 2 c1Stream) =
      some [(['A', 'B'], ['A', 'B']), (['B', 'A'], ['A', 'B'])] ∧
    (['A', 'B'] : Str) ≠ ['B', 'A'] := by
  exact ⟨by rfl, by decide⟩

/-- C1 (amended): for every `generatePuzzle` placement, reading the grid at
the recorded cell order reproduces the entry's uppercase text exactly; for
every `WordSearchGame` placement, it reproduces the stored uppercase text or
its reversal — the reversal occurring exactly on the reversed-placement
fallback. -/
theorem c1_amended :
    (∀ (words : List Str) (size : Nat) (r : RandSrc),
      ∀ e ∈ (generatePuzzle words size r).1.placedWords,
        readLetters (generatePuzzle words size r).1.grid e.positions =
          e.word) ∧
    (∀ (words : List Str) (size : Nat) (r : RandSrc) (s : GameState)
      (r' : RandSrc), WordSearchGame.new words size r = .ok (s, r') →
      ∀ wp ∈ s.wordPositions,
        readLetters s.grid wp.positions = wp.word ∨
        readLetters s.grid wp.positions = wp.word.reverse) := by
  constructor
  · intro words size r e he
    obtain ⟨-, -, -, hplaced, -, -⟩ :=
      @generatePuzzle_inv (fun _ => True) words size r
        (fun _ _ _ _ => trivial) (fun _ _ => trivial)
    exact readLetters_of_map_some (hplaced e he).2.2.2
  · intro words size r s r' h wp hwp
    obtain ⟨-, -, -, -, -, -, hwf⟩ :=
      WordSearchGame.new_spec (fun _ => True) h
        (fun _ _ _ _ => trivial) (fun _ _ => trivial)
    rcases ((hwf wp hwp).1).2.2.2.1 with hrb | hrb
    · exact Or.inl (readLetters_of_map_some hrb)
    · exact Or.inr (readLetters_of_map_some hrb)

/-- C1 (witness): the amended theorem applied to the concrete run
`WordSearchGame.new [['A','B']] 2 streamZero`, whose single placement reads
back as its own text. -/
theorem c1_witness :
    readLetters demoState.grid [(0, 0), (0, 1)] = ['A', 'B'] ∨
    readLetters demoState.grid [(0, 0), (0, 1)] = ['A', 'B'].reverse := by
  have h := c1_amended.2 [['A', 'B']] 2 streamZero demoState ⟨fun _ => 0, 5⟩
    (by rfl) ⟨['A', 'B'], 0, 0, Dir4.h, [(0, 0), (0, 1)]⟩ (by decide)
  exact h

/-- C2: on every reachable session state and every selection of at least two
cells, `checkSelection` returns exactly `claimResult`: the first placement
`wp` (scanning stops there) such that `wp.word` is not yet found, the
selection's deduplicated cell set equals `wp`'s deduplicated cell set (equal
sizes and mutual membership, independent of drag order), and the letters read
at the selection in drag order equal the letters read at `wp`'s recorded
cells, their reversal, or the stored uppercase word text; that word is
returned and appended to `foundWords`.  If no placement matches — in
particular when a selection's cell set equals an already-found word's
footprint — the result is `none` and the state is unchanged, so a different
still-unfound word can still match later. -/
theorem c2_checkSelection (s : GameState) (hs : Reachable s)
    (sel : List (Int × Int)) (hsel : 2 ≤ sel.length) :
    checkSelection s sel = .ok (claimResult s sel) := by
  obtain ⟨hd, hwf, -, -⟩ := reachable_wf hs
  exact checkSelection_claim hd (fun wp hwp => (hwf wp hwp).1) hsel

/-- C2 (witness): on the concrete game `demoState`, dragging the word's two
cells in reverse order matches `"AB"` and adds it to the found set. -/
theorem c2_witness :
    checkSelection demoState [(0, 1), (0, 0)] =
      .ok (claimResult demoState [(0, 1), (0, 0)]) ∧
    claimResult demoState [(0, 1), (0, 0)] = (some ['A', 'B'], demoFound) := by
  exact ⟨c2_checkSelection demoState demo_reachable [(0, 1), (0, 0)]
    (by decide), by rfl⟩

/-- C3 (counterexample): the claim fails for word lists with non-letter
characters: generating with the word `"11"` places the digit `'1'` into grid
cells, so not every cell holds an uppercase A–Z letter. -/
theorem c3_counterexample :
    cellAt (generatePuzzle [['1', '1']] 2 streamZero).1.grid 0 0 = some '1' ∧
    ¬ isAZ '1' := by
  exact ⟨by rfl, by decide⟩

/-- C3 (amended): after any completed generation call the grid is a full
`size × size` matrix with every cell holding exactly one character (no `''`
cell remains), and — provided every input word uppercases to A–Z letters
only, the repository's stated scope — every cell holds an uppercase A–Z
letter.  For `WordSearchGame` this is conditional on the constructor
completing (see C5). -/
theorem c3_amended :
    (∀ (words : List Str) (size : Nat) (r : RandSrc),
      gridDims size (generatePuzzle words size r).1.grid ∧
      gridFilled size (generatePuzzle words size r).1.grid) ∧
    (∀ (words : List Str) (size : Nat) (r : RandSrc),
      (∀ w ∈ words, ∀ c ∈ upperStr w, isAZ c) →
      gridOk isAZ (generatePuzzle words size r).1.grid) ∧
    (∀ (words : List Str) (size : Nat) (r : RandSrc) (s : GameState)
      (r' : RandSrc), WordSearchGame.new words size r = .ok (s, r') →
      gridDims size s.grid ∧ gridFilled size s.grid ∧
      ((∀ w ∈ words, ∀ c ∈ upperStr w, isAZ c) → gridOk isAZ s.grid)) := by
  refine ⟨?_, ?_, ?_⟩
  · intro words size r
    obtain ⟨hdim, hfill, -, -, -, -⟩ :=
      @generatePuzzle_inv (fun _ => True) words size r
        (fun _ _ _ _ => trivial) (fun _ _ => trivial)
    exact ⟨hdim, hfill⟩
  · intro words size r hchars
    obtain ⟨-, -, hok, -, -, -⟩ :=
      @generatePuzzle_inv isAZ words size r hchars (by decide)
    exact hok
  · intro words size r s r' h
    obtain ⟨-, -, -, hdim, hfill, -, -⟩ :=
      WordSearchGame.new_spec (fun _ => True) h
        (fun _ _ _ _ => trivial) (fun _ _ => trivial)
    refine ⟨hdim, hfill, ?_⟩
    intro hchars
    obtain ⟨-, -, -, -, -, hok, -⟩ :=
      WordSearchGame.new_spec isAZ h hchars (by decide)
    exact hok

/-- C3 (witness): the amended theorem applied to the concrete constructed
game `demoState` (input word `"AB"`). -/
theorem c3_witness :
    gridFilled 2 demoState.grid ∧ gridOk isAZ demoState.grid := by
  have h := c3_amended.2.2 [['A', 'B']] 2 streamZero demoState ⟨fun _ => 0, 5⟩
    (by rfl)
  exact ⟨h.2.1, h.2.2 (by decide)⟩

set_option maxRecDepth 8000 in
/-- C4 (counterexample): in the `c4Stream` run, `"AB"` and `"CA"` share the
crossing cell `(0,0)` (the shared letter `'A'` coincides, so neither word's
letters are overwritten), yet re-reading `"CA"`'s recorded cells yields
`"AC"`, not its text: the word was committed through the reversed fallback,
so the claim's "re-reading both placed words yields each word's correct
text" is false as stated. -/
theorem c4_counterexample :
    (WordSearchGame.new [['A', 'B'], ['C', 'A']] 3 c4Stream).toOption.map
        (fun x => x.1.wordPositions.map fun wp => (wp.word, wp.positions)) =
      some [(['A', 'B'], [(0, 0), (0, 1)]), (['C', 'A'], [(0, 0), (1, 0)])] ∧
    gameReadbacks (WordSearchGame.new [['A', 'B'], ['C', 'A']] 3 c4Stream) =
      some [(['A', 'B'], ['A', 'B']), (['C', 'A'], ['A', 'C'])] ∧
    (['A', 'C'] : Str) ≠ ['C', 'A'] := by
  exact ⟨by rfl, by rfl, by decide⟩

/-- C4 (amended): an occupied cell is only ever rewritten with the letter it
already holds — committing any admissible walk (one that passed
`canPlaceWord` / the `canPlace` check) extends the grid, preserving every
letter already present — so crossing words never corrupt each other; after
all placement (and filling), each placed word's cells read back exactly as
the letter sequence written for it: the uppercase text for `generatePuzzle`,
and the text or its reversal (fallback placements) for `WordSearchGame`. -/
theorem c4_amended :
    (∀ (size : Nat) (g : Grid), gridDims size g →
      ∀ (d : Dir8) (sr sc : Int) (w : Str) (ps : List (Int × Int)),
        checkCells size g d sr sc w.length 0 w = some ps →
        GridExtends g (placeLetters g ps w)) ∧
    (∀ (size : Nat) (g : Grid), gridDims size g →
      ∀ (w : Str) (row col : Int) (d : Dir4),
        canPlaceWord g w row col d 0 w = .ok true →
        GridExtends g (insertWord g w row col d 0 w).2) ∧
    (∀ (words : List Str) (size : Nat) (r : RandSrc),
      ∀ e ∈ (generatePuzzle words size r).1.placedWords,
        readLetters (generatePuzzle words size r).1.grid e.positions =
          e.word) ∧
    (∀ (words : List Str) (size : Nat) (r : RandSrc) (s : GameState)
      (r' : RandSrc), WordSearchGame.new words size r = .ok (s, r') →
      ∀ wp ∈ s.wordPositions,
        readLetters s.grid wp.positions = wp.word ∨
        readLetters s.grid wp.positions = wp.word.reverse) := by
  refine ⟨?_, ?_, ?_, ?_⟩
  · intro size g hd d sr sc w ps hcc
    obtain ⟨-, hbnd, hzip⟩ := checkCells_spec hcc
    exact writeCells_extends hd (checkCells_length hcc) (checkCells_nodup hcc)
      hbnd hzip
  · intro size g hd w row col d hcp
    obtain ⟨hbnd, hzip⟩ := canPlaceWord_spec hd hcp
    rw [insertWord_eq w 0]
    refine writeCells_extends hd ?_ ?_ hbnd hzip
    · rw [List.length_map, List.length_range]
    · refine List.Nodup.map_on ?_ (List.nodup_range _)
      intro x _ y _ he
      by_contra hne
      exact getNextPosition_inj row col d (fun e => hne (by omega)) he
  · intro words size r e he
    obtain ⟨-, -, -, hplaced, -, -⟩ :=
      @generatePuzzle_inv (fun _ => True) words size r
        (fun _ _ _ _ => trivial) (fun _ _ => trivial)
    exact readLetters_of_map_some (hplaced e he).2.2.2
  · intro words size r s r' h wp hwp
    obtain ⟨-, -, -, -, -, -, hwf⟩ :=
      WordSearchGame.new_spec (fun _ => True) h
        (fun _ _ _ _ => trivial) (fun _ _ => trivial)
    rcases ((hwf wp hwp).1).2.2.2.1 with hrb | hrb
    · exact Or.inl (readLetters_of_map_some hrb)
    · exact Or.inr (readLetters_of_map_some hrb)

/-- C4 (witness): the write-preservation conjunct applied to a concrete
admissible walk on the `demoState` grid: placing `"AA"` down the first
column (crossing the existing `'A'` at `(0,0)`) preserves every letter
already present. -/
theorem c4_witness :
    GridExtends demoState.grid
      (insertWord demoState.grid ['A', 'A'] 0 0 Dir4.v 0 ['A', 'A']).2 := by
  exact c4_amended.2.1 2 demoState.grid (by decide) ['A', 'A'] 0 0 Dir4.v
    (by rfl)

/-- C5 (counterexample): generation CAN fail outright in `WordSearchGame`.
With the word `"ABCDE"` (length 5) on a 3×3 grid, the first attempt draws
the vertical direction and start row `-1` (`Math.floor(Math.random() * -1)`
is `-1` for any non-zero draw); `canPlaceWord` then evaluates
`grid[-1][col]`, i.e. `undefined[col]`, which throws a `TypeError` — the
constructor does not terminate normally. -/
theorem c5_counterexample :
    WordSearchGame.new [['A', 'B', 'C', 'D', 'E']] 3 c5Stream = .error () ∧
    3 < (['A', 'B', 'C', 'D', 'E'] : Str).length := by
  exact ⟨by rfl, by decide⟩

/-- C5 (amended): `generatePuzzle` never fails — it is a total function
(every array access in its source is bounds-guarded), a word longer than
`size` never appears in `placedWords`, and the grid is always fully filled.
`WordSearchGame`'s generator can throw for a word longer than the grid side
(see the counterexample); whenever its construction does complete, overlong
words are likewise absent and the grid is fully filled. -/
theorem c5_amended :
    (∀ (words : List Str) (size : Nat) (r : RandSrc),
      (∀ e ∈ (generatePuzzle words size r).1.placedWords,
        e.word.length ≤ size) ∧
      gridFilled size (generatePuzzle words size r).1.grid) ∧
    (∀ (words : List Str) (size : Nat) (r : RandSrc) (s : GameState)
      (r' : RandSrc), WordSearchGame.new words size r = .ok (s, r') →
      (∀ wp ∈ s.wordPositions, wp.word.length ≤ size) ∧
      gridFilled size s.grid) := by
  constructor
  · intro words size r
    obtain ⟨-, hfill, -, -, -, hlens⟩ :=
      @generatePuzzle_inv (fun _ => True) words size r
        (fun _ _ _ _ => trivial) (fun _ _ => trivial)
    exact ⟨hlens, hfill⟩
  · intro words size r s r' h
    obtain ⟨-, -, -, -, hfill, -, hwf⟩ :=
      WordSearchGame.new_spec (fun _ => True) h
        (fun _ _ _ _ => trivial) (fun _ _ => trivial)
    exact ⟨fun wp hwp => (hwf wp hwp).2, hfill⟩

/-- C5 (witness): the amended theorem applied to the completed construction
of `demoState` from the word `"AB"` on a 2×2 grid. -/
theorem c5_witness :
    (∀ wp ∈ demoState.wordPositions, wp.word.length ≤ 2) ∧
    gridFilled 2 demoState.grid := by
  exact c5_amended.2 [['A', 'B']] 2 streamZero demoState ⟨fun _ => 0, 5⟩
    (by rfl)

/-- C6: the repository's generators draw from the ambient global
`Math.random()` — there is no injectable or seedable random-source
parameter in `generatePuzzle` or `WordSearchGame`, contrary to the claim
(`code_bug`: the specification explicitly demands an injectable source).
What IS true of the code, reflected here, is that generation is a
deterministic function of the word list, the size, and the sequence of
values the ambient source produces: two runs whose random streams agree
produce identical puzzles and identical constructed states. -/
theorem c6_determinism :
    (∀ (words : List Str) (size : Nat) (f g : Nat → Int) (i : Nat),
      (∀ k, f k = g k) →
      generatePuzzle words size ⟨f, i⟩ = generatePuzzle words size ⟨g, i⟩) ∧
    (∀ (words : List Str) (size : Nat) (f g : Nat → Int) (i : Nat),
      (∀ k, f k = g k) →
      WordSearchGame.new words size ⟨f, i⟩ =
        WordSearchGame.new words size ⟨g, i⟩) := by
  constructor
  · intro words size f g i hfg
    rw [funext hfg]
  · intro words size f g i hfg
    rw [funext hfg]

/-- C6 (witness): the determinism conjuncts applied at a concrete input and
the constant-zero stream. -/
theorem c6_witness :
    generatePuzzle [['C', 'A', 'T']] 5 ⟨fun _ => 0, 0⟩ =
      generatePuzzle [['C', 'A', 'T']] 5 ⟨fun _ => 0, 0⟩ := by
  exact c6_determinism.1 [['C', 'A', 'T']] 5 (fun _ => 0) (fun _ => 0) 0
    (fun _ => rfl)

/-- C7 (counterexample): `WordSearchGame.generateGrid` does NOT sort: it
attempts placement over `this.words` in input order.  Constructing with
`["AB", "ABC"]` stores and places the words in that order — lengths 2 then
3, not descending. -/
theorem c7_counterexample :
    (WordSearchGame.new [['A', 'B'], ['A', 'B', 'C']] 3 streamZero).toOption.map
        (fun x => (x.1.words, x.1.wordPositions.map WordPosition.word)) =
      some ([['A', 'B'], ['A', 'B', 'C']], [['A', 'B'], ['A', 'B', 'C']]) ∧
    ¬ lenSortedDesc [['A', 'B'], ['A', 'B', 'C']] := by
  exact ⟨by rfl, by decide⟩

/-- C7 (amended): `generatePuzzle` sorts its working list by length
descending (`jsSortLenDesc`, the stable JS `sort` by `b.length - a.length`)
and uppercases each word before attempting it, so its placed words are
uppercase and appear in length-descending order; `WordSearchGame` uppercases
its words but attempts them in input order (`s.words` is exactly the
uppercased input list, unsorted). -/
theorem c7_amended :
    (∀ words : List Str, lenSortedDesc (jsSortLenDesc words)) ∧
    (∀ (words : List Str) (size : Nat) (r : RandSrc),
      lenSortedDesc
        ((generatePuzzle words size r).1.placedWords.map PlacedWord.word)) ∧
    (∀ (words : List Str) (size : Nat) (r : RandSrc),
      ∀ e ∈ (generatePuzzle words size r).1.placedWords,
        upperStr e.word = e.word) ∧
    (∀ (words : List Str) (size : Nat) (r : RandSrc) (s : GameState)
      (r' : RandSrc), WordSearchGame.new words size r = .ok (s, r') →
      s.words = words.map upperStr) := by
  have hsortedUp : ∀ words : List Str,
      ((jsSortLenDesc words).map upperStr).Pairwise
        (fun a b : Str => b.length ≤ a.length) := by
    intro words
    rw [List.pairwise_map]
    refine (jsSortLenDesc_sorted words).imp ?_
    intro a b hab
    rw [upperStr_length, upperStr_length]
    exact hab
  refine ⟨jsSortLenDesc_sorted, ?_, ?_, ?_⟩
  · intro words size r
    obtain ⟨-, -, -, -, hsub, -⟩ :=
      @generatePuzzle_inv (fun _ => True) words size r
        (fun _ _ _ _ => trivial) (fun _ _ => trivial)
    exact (hsortedUp words).sublist hsub
  · intro words size r e he
    obtain ⟨-, -, -, -, hsub, -⟩ :=
      @generatePuzzle_inv (fun _ => True) words size r
        (fun _ _ _ _ => trivial) (fun _ _ => trivial)
    have hmem : e.word ∈ (jsSortLenDesc words).map upperStr :=
      hsub.subset (List.mem_map_of_mem _ he)
    obtain ⟨w0, -, hw0⟩ := List.mem_map.1 hmem
    rw [← hw0]
    exact upperStr_idem w0
  · intro words size r s r' h
    obtain ⟨-, hws, -, -, -, -, -⟩ :=
      WordSearchGame.new_spec (fun _ => True) h
        (fun _ _ _ _ => trivial) (fun _ _ => trivial)
    exact hws

/-- C7 (witness): the `WordSearchGame` conjunct applied to the concrete
construction of `demoState`: its stored attempt list is the uppercased input
in input order. -/
theorem c7_witness :
    demoState.words = [['A', 'B']].map upperStr := by
  exact c7_amended.2.2.2 [['A', 'B']] 2 streamZero demoState ⟨fun _ => 0, 5⟩
    (by rfl)

/-- C8: `checkSelection` is total on irregular input: on every reachable
state, a selection that is shorter than 2 cells, contains duplicate cells,
or references any out-of-bounds coordinate produces `.ok (none, s)` — no
match, no thrown error (`Except.error` never arises on these paths, so no
out-of-range row is ever dereferenced), and the state, in particular
`foundWords`, is unchanged. -/
theorem c8_irregular (s : GameState) (hs : Reachable s)
    (sel : List (Int × Int)) :
    (sel.length < 2 → checkSelection s sel = .ok (none, s)) ∧
    (¬ sel.Nodup → checkSelection s sel = .ok (none, s)) ∧
    ((∃ p ∈ sel, ¬ inBounds s.size p) →
      checkSelection s sel = .ok (none, s)) := by
  obtain ⟨hd, hwf', -, -⟩ := reachable_wf hs
  have hwf : ∀ wp ∈ s.wordPositions, WFwp s.size s.grid wp :=
    fun wp hwp => (hwf' wp hwp).1
  refine ⟨?_, ?_, ?_⟩
  · intro h2
    unfold checkSelection
    rw [if_pos h2]
  · intro hdup
    rcases Nat.lt_or_ge sel.length 2 with h2 | h2
    · unfold checkSelection
      rw [if_pos h2]
    · rw [checkSelection_claim hd hwf h2]
      unfold claimResult
      rw [find_none_of_dup hwf hdup]
  · rintro ⟨p0, hp0, hbad⟩
    rcases Nat.lt_or_ge sel.length 2 with h2 | h2
    · unfold checkSelection
      rw [if_pos h2]
    · rw [checkSelection_claim hd hwf h2]
      unfold claimResult
      rw [find_none_of_oob hwf hp0 hbad]

/-- C8 (witness): on the concrete game `demoState`, a duplicate-cell
selection, a selection with an out-of-bounds coordinate, and a length-1
selection each return no match and leave the state unchanged. -/
theorem c8_witness :
    checkSelection demoState [(0, 0), (0, 0)] = .ok (none, demoState) ∧
    checkSelection demoState [(5, 5), (0, 0)] = .ok (none, demoState) ∧
    checkSelection demoState [(0, 0)] = .ok (none, demoState) := by
  refine ⟨(c8_irregular demoState demo_reachable [(0, 0), (0, 0)]).2.1
      (by decide),
    (c8_irregular demoState demo_reachable [(5, 5), (0, 0)]).2.2
      ⟨(5, 5), by decide, by decide⟩,
    (c8_irregular demoState demo_reachable [(0, 0)]).1 (by decide)⟩

/-- C9: on every reachable session state, every found word is the text of
some placement (`foundWords ⊆ {wp.word}`), and `checkSelection` — the only
mutator of `foundWords` in the repository — only ever appends to it
(monotone growth), leaves the state entirely unchanged when it reports no
match, and never touches the grid, the word list, or the placements. -/
theorem c9_foundWords (s : GameState) (hs : Reachable s) :
    (∀ w ∈ s.foundWords, ∃ wp ∈ s.wordPositions, wp.word = w) ∧
    (∀ (sel : List (Int × Int)) (o : Option Str) (s' : GameState),
      checkSelection s sel = .ok (o, s') →
      (∃ t, s'.foundWords = s.foundWords ++ t) ∧
      (o = none → s' = s) ∧
      s'.wordPositions = s.wordPositions ∧ s'.grid = s.grid ∧
      s'.words = s.words ∧ s'.size = s.size) := by
  obtain ⟨-, -, -, hfound⟩ := reachable_wf hs
  refine ⟨hfound, ?_⟩
  intro sel o s' h
  obtain ⟨f1, f2, f3, f4, hcase, t, f5⟩ := checkSelection_frame h
  refine ⟨⟨t, f5⟩, ?_, f4, f2, f3, f1⟩
  intro ho
  rcases hcase with ⟨-, hs'⟩ | ⟨wp, -, hsome, -⟩
  · exact hs'
  · rw [ho] at hsome
    cases hsome

/-- C9 (witness): on the concrete game `demoState`, the successful selection
of `"AB"` extends `foundWords` by appending, changes nothing else, and (the
no-match clause is vacuous since a word was returned). -/
theorem c9_witness :
    (∃ t, demoFound.foundWords = demoState.foundWords ++ t) ∧
    (some ['A', 'B'] = (none : Option Str) → demoFound = demoState) ∧
    demoFound.wordPositions = demoState.wordPositions ∧
    demoFound.grid = demoState.grid ∧
    demoFound.words = demoState.words ∧
    demoFound.size = demoState.size := by
  exact (c9_foundWords demoState demo_reachable).2 [(0, 0), (0, 1)]
    (some ['A', 'B']) demoFound (by rfl)

/-- C10: a word list containing the empty string always "places" the empty
word on its first attempt: the empty walk is vacuously admissible whatever
direction and start are drawn, so `generatePuzzle`'s `placedWords` (and
`WordSearchGame`'s `wordPositions`, whenever construction completes) receive
an entry with empty text and an empty cell list, while the attempt writes no
letter into any grid cell (the grid passes through unchanged) and consumes
exactly the first attempt's three draws. -/
theorem c10_empty_word :
    (∀ (words : List Str) (size : Nat) (r : RandSrc), [] ∈ words →
      ∃ e ∈ (generatePuzzle words size r).1.placedWords,
        e.word = [] ∧ e.positions = []) ∧
    (∀ (size fuel : Nat) (g : Grid) (r : RandSrc),
      tryPlaceGen size [] (fuel + 1) g r = (some [], g, ⟨r.f, r.i + 3⟩)) ∧
    (∀ (size : Nat) (g : Grid) (wps : List WordPosition) (r : RandSrc),
      ∃ row col d, placeWord size [] g wps r =
        .ok (g, wps ++ [⟨[], row, col, d, []⟩], ⟨r.f, r.i + 3⟩)) ∧
    (∀ (words : List Str) (size : Nat) (r : RandSrc) (s : GameState)
      (r' : RandSrc), WordSearchGame.new words size r = .ok (s, r') →
      [] ∈ words →
      ∃ wp ∈ s.wordPositions, wp.word = [] ∧ wp.positions = []) := by
  refine ⟨?_, tryPlaceGen_nil, placeWord_nil, ?_⟩
  · intro words size r hmem
    rw [generatePuzzle_placedWords]
    exact genLoop_mem_empty (jsSortLenDesc words) 0
      (List.replicate size (List.replicate size none)) [] r
      (jsSortLenDesc_mem hmem)
  · intro words size r s r' h hmem
    obtain ⟨g1, r1, hpa⟩ := WSnew_wordPositions h
    exact placeAllWords_mem_empty (words.map upperStr)
      (List.replicate size (List.replicate size none)) [] r hpa
      (List.mem_map.2 ⟨[], hmem, rfl⟩)

/-- C10 (witness): the theorem applied to the concrete word list `[""]` on a
1×1 grid, for both generators. -/
theorem c10_witness :
    (∃ e ∈ (generatePuzzle [[]] 1 streamZero).1.placedWords,
      e.word = [] ∧ e.positions = []) ∧
    (∃ wp ∈ (⟨1, [[some 'A']], [[]],
        [⟨[], 0, 0, Dir4.h, []⟩], []⟩ : GameState).wordPositions,
      wp.word = [] ∧ wp.positions = []) := by
  refine ⟨c10_empty_word.1 [[]] 1 streamZero (by decide), ?_⟩
  exact c10_empty_word.2.2.2 [[]] 1 streamZero
    ⟨1, [[some 'A']], [[]], [⟨[], 0, 0, Dir4.h, []⟩], []⟩
    ⟨fun _ => 0, 4⟩ (by rfl) (by decide)
